import Mathlib

/-!
# Verification of the keep-exporter reconciliation engine

Shallow embedding of `keep_exporter/export.py` and `keep_exporter/cli.py`:
the local-file indexer, the unique-path resolver, the best-effort rename,
the orphan handling and the per-note skip/create/update decision, together
with proofs of the specified reconciliation properties.

Paths are lists of components; datetimes are seconds since the Unix epoch;
metadata values are a small YAML-like value type.  External collaborators
(`pathvalidate.sanitize_filename`, `strftime`, the media downloader and the
markdown renderer) are parameters of the embedding, as the spec treats them
as external interfaces.
-/

namespace KeepExporter

/-- A filesystem path, as its list of components relative to the root. -/
abbrev Path := List String

/-- A point in time, as whole seconds since the Unix epoch
(`datetime.timestamp()` collapses a datetime to exactly this number). -/
abbrev Datetime := Int

/-- Python `datetime.timestamp()`: seconds since the Unix epoch. -/
def Datetime.timestamp (d : Datetime) : Int := d

/-- The civil (Gregorian) year containing day `z`, where `z` counts days
since 1970-01-01.  Standard civil-from-days computation. -/
def civilYearOfDays (z : Int) : Int :=
  let z := z + 719468
  let era := Int.fdiv z 146097
  let doe := z - era * 146097
  let yoe := Int.fdiv (doe - Int.fdiv doe 1460 + Int.fdiv doe 36524 - Int.fdiv doe 146096) 365
  let y := yoe + era * 400
  let doy := doe - (365 * yoe + Int.fdiv yoe 4 - Int.fdiv yoe 100)
  let mp := Int.fdiv (5 * doy + 2) 153
  let m := if mp < 10 then mp + 3 else mp - 9
  if m ≤ 2 then y + 1 else y

/-- Python `datetime.year`: the civil year of the instant. -/
def Datetime.year (d : Datetime) : Int := civilYearOfDays (Int.fdiv d 86400)

/-- A scalar metadata value. -/
inductive Prim where
  | str (s : String)
  | bool (b : Bool)
  | int (n : Int)
deriving DecidableEq, Repr

/-- A YAML-like metadata value, as stored in a frontmatter header:
scalars, lists of strings (tags), and one level of nested mapping with
scalar values (the `timestamps` sub-dict). -/
inductive Value where
  | prim (p : Prim)
  | strlist (l : List String)
  | dict (d : List (String × Prim))
deriving DecidableEq, Repr

/-- Scalar string value. -/
def Value.str (s : String) : Value := .prim (.str s)

/-- Scalar boolean value. -/
def Value.bool (b : Bool) : Value := .prim (.bool b)

/-- Scalar integer value. -/
def Value.int (n : Int) : Value := .prim (.int n)

/-- Python truthiness of a metadata value (`if info.google_keep_id:`). -/
def Value.truthy : Value → Bool
  | .prim (.str s) => decide (s ≠ "")
  | .prim (.bool b) => b
  | .prim (.int n) => decide (n ≠ 0)
  | .strlist l => decide (l ≠ [])
  | .dict d => decide (d ≠ [])

/-- Lookup in an association list, first match (`dict.get`). -/
def alookup {α : Type} (k : String) : List (String × α) → Option α
  | [] => none
  | (k', v) :: rest => if k' = k then some v else alookup k rest

/-- The `note.timestamps` record of a remote note (gkeepapi `NodeTimestamps`):
`created`/`edited`/`updated` always exist; `trashed`/`deleted` may be absent. -/
structure Timestamps where
  created : Datetime
  edited : Datetime
  updated : Datetime
  trashed : Option Datetime
  deleted : Option Datetime
deriving DecidableEq, Repr

/-- A remote note (immutable per-run snapshot of a gkeepapi `Note`). -/
structure Note where
  id : String
  title : String
  pinned : Bool
  trashed : Bool
  deleted : Bool
  color : String
  type : String
  parent_id : String
  sort : String
  url : String
  labels : List String
  timestamps : Timestamps
deriving DecidableEq, Repr

/-- A `frontmatter.Post`: body text plus a metadata mapping. -/
structure Post where
  content : String
  metadata : List (String × Value)
deriving DecidableEq, Repr

/-- Source `build_frontmatter` (export.py): the metadata dict written into a
note's header.  `timestamps.trashed` / `timestamps.deleted` are appended
only when present with year after 1970. -/
def build_frontmatter (note : Note) (markdown : String) : Post :=
  let timestamps : List (String × Prim) :=
    [("created", .int note.timestamps.created.timestamp),
     ("edited", .int note.timestamps.edited.timestamp),
     ("updated", .int note.timestamps.updated.timestamp)]
  let timestamps :=
    match note.timestamps.trashed with
    | some t => if t.year > 1970 then timestamps ++ [("trashed", .int t.timestamp)] else timestamps
    | none => timestamps
  let timestamps :=
    match note.timestamps.deleted with
    | some t => if t.year > 1970 then timestamps ++ [("deleted", .int t.timestamp)] else timestamps
    | none => timestamps
  { content := markdown
    metadata :=
      [("google_keep_id", .str note.id),
       ("title", .str note.title),
       ("pinned", .bool note.pinned),
       ("trashed", .bool note.trashed),
       ("deleted", .bool note.deleted),
       ("color", .str note.color),
       ("type", .str note.type),
       ("parent_id", .str note.parent_id),
       ("sort", .str note.sort),
       ("url", .str note.url),
       ("tags", .strlist note.labels),
       ("timestamps", .dict timestamps)] }

/-- The sub-dict stored under the `timestamps` metadata key. -/
def frontmatterTimestamps (note : Note) : List (String × Prim) :=
  match alookup "timestamps" (build_frontmatter note "").metadata with
  | some (.dict ts) => ts
  | _ => []

/-- What reading a file and parsing its frontmatter yields:
a parsed metadata mapping, an `IOError` on open, or a non-`IOError`
parse exception raised by `frontmatter.load`. -/
inductive ReadResult where
  | ok (meta : List (String × Value))
  | ioError
  | parseError
deriving DecidableEq, Repr

/-- A file on disk: its path plus what reading it would yield. -/
structure File where
  path : Path
  read : ReadResult
deriving DecidableEq, Repr

/-- The output directory tree, as the list of its files
(in directory-traversal order). -/
abbrev Filesystem := List File

/-- Python `file.name.endswith(".md")`: classification as a note file
(suffix test spelled on the character lists so it computes). -/
def isMd (p : Path) : Bool :=
  ".md".data.isSuffixOf (p.getLast? |>.getD "").data

/-- Whether a path exists on disk (`target_path.exists()`). -/
def pathExists (fs : Filesystem) (p : Path) : Bool := fs.any (·.path = p)

/-- Source `MarkdownFile` (export.py): what the v1 indexer records per note file. -/
structure MarkdownFile where
  path : Path
  timestamp_updated : Option Prim
  google_keep_id : Option Value
deriving DecidableEq, Repr

/-- Counters and index accumulated by `index_existing_files`. -/
structure IndexState where
  index : List (Value × MarkdownFile)
  keep_notes : Nat
  unknown_notes : Nat
  errors : Nat
  media : Nat
deriving DecidableEq, Repr

/-- Python `dict` assignment `index[k] = v`: overwrite in place if the key
exists, otherwise append. -/
def dictInsert {κ α : Type} [DecidableEq κ] (idx : List (κ × α)) (k : κ) (v : α) :
    List (κ × α) :=
  if (idx.map Prod.fst).contains k then
    idx.map (fun kv => if kv.1 = k then (k, v) else kv)
  else idx ++ [(k, v)]

/-- Python `dict` lookup. -/
def dictGet {κ α : Type} [DecidableEq κ] (idx : List (κ × α)) (k : κ) : Option α :=
  (idx.find? (·.1 = k)).map (·.2)

/-- One step of `index_existing_files` (export.py, v1) on a single file.
Faithful to the source: on `IOError` the handler executes `errors = 0`
(not `errors += 1`); any other exception — a frontmatter parse error, or
the `AttributeError` from `fm.metadata.get("timestamps").get("updated")`
when `timestamps` is absent or not a mapping — is uncaught and aborts. -/
def indexFile (st : IndexState) (file : File) : Except String IndexState :=
  if isMd file.path then
    match file.read with
    | .ioError => .ok { st with errors := 0 }
    | .parseError => .error "frontmatter parse error"
    | .ok meta =>
      match alookup "timestamps" meta with
      | some (.dict ts) =>
        let info : MarkdownFile :=
          { path := file.path
            timestamp_updated := alookup "updated" ts
            google_keep_id := alookup "google_keep_id" meta }
        match info.google_keep_id with
        | some gid =>
          if gid.truthy then
            .ok { st with keep_notes := st.keep_notes + 1
                          index := dictInsert st.index gid info }
          else .ok { st with unknown_notes := st.unknown_notes + 1 }
        | none => .ok { st with unknown_notes := st.unknown_notes + 1 }
      | _ => .error "AttributeError: NoneType has no attribute get"
  else
    .ok { st with media := st.media + 1 }

/-- Source `index_existing_files` (export.py, v1): fold `indexFile` over the
directory traversal, propagating any uncaught exception. -/
def index_existing_files (files : Filesystem) : Except String IndexState :=
  files.foldlM indexFile { index := [], keep_notes := 0, unknown_notes := 0,
                           errors := 0, media := 0 }

/-- The `LocalNote` record (the record `cli.py` receives from the index; spec §3):
remote id, optional on-disk path, optional stored updated-timestamp.
`LocalNote(note.id)` constructs one with only the id. -/
structure LocalNote where
  id : String
  path : Option Path := none
  timestamp_updated : Option Datetime := none
deriving DecidableEq, Repr

/-- External collaborators of the path resolver: `pathvalidate.sanitize_filename`
(with `max_len=135`) and `datetime.strftime`, parameters of the embedding. -/
structure NameEnv where
  sanitize : String → String
  strftime : Datetime → String → String

/-- Python `str.strip()`, spelled on the character list so it computes. -/
def pyStrip (s : String) : String :=
  ⟨((s.data.dropWhile Char.isWhitespace).reverse.dropWhile Char.isWhitespace).reverse⟩

/-- The sanitized base stem `sanitize_filename(f"{date_str} - " + title)`
of a note's filename. -/
def noteStem (env : NameEnv) (note : Note) (date_format : String) : String :=
  let title := if (pyStrip note.title).length = 0 then "untitled" else pyStrip note.title
  let date_str := env.strftime note.timestamps.created date_format
  env.sanitize (date_str ++ " - " ++ title)

/-- The plain candidate path `notepath / f"{stem}.md"`. -/
def candidatePath (env : NameEnv) (notepath : Path) (note : Note)
    (date_format : String) : Path :=
  notepath ++ [noteStem env note date_format ++ ".md"]

/-- The `n`-th dedupe candidate: the plain candidate for `n = 0`, and
`notepath / f"{stem}.{note.id}.{n}.md"` for `n ≥ 1`. -/
def dedupeCandidate (env : NameEnv) (notepath : Path) (note : Note)
    (date_format : String) (n : Nat) : Path :=
  if n = 0 then candidatePath env notepath note date_format
  else notepath ++ [noteStem env note date_format ++ "." ++ note.id ++ "." ++
                    Nat.repr n ++ ".md"]

/-- The `while target_path.exists()` dedupe loop of `build_note_unique_path`:
starting at candidate `i`, return the first candidate not on disk.
The fuel is an upper bound on the iterations actually needed; the source
loop terminates because distinct candidates have distinct names. -/
def dedupeLoop (occupied : List Path) (cand : Nat → Path) : Nat → Nat → Path
  | 0, i => cand i
  | fuel + 1, i => if cand i ∈ occupied then dedupeLoop occupied cand fuel (i + 1) else cand i

/-- Source `build_note_unique_path` (export.py): compute the canonical target path
for a note.  If the note is indexed: return its path when it already equals
the candidate (stable), or when the candidate is occupied (anti-oscillation:
no rename into an occupied slot).  Otherwise run the dedupe loop from the
plain candidate. -/
def build_note_unique_path (env : NameEnv) (fs : Filesystem) (notepath : Path)
    (note : Note) (date_format : String) (local_index : List (Value × LocalNote)) :
    Path :=
  let target_path := candidatePath env notepath note date_format
  let fromIndex : Option Path :=
    match dictGet local_index (.str note.id) with
    | some ln =>
      -- if the note filename matches the current filename for that note, we're good
      if ln.path == some target_path then some target_path
      -- if re-naming would require de-duping the target filename, keep the existing one
      else if pathExists fs target_path then some (ln.path.getD target_path)
      else none
    | none => none
  match fromIndex with
  | some p => p
  | none =>
    let occupied := fs.map (·.path)
    dedupeLoop occupied (dedupeCandidate env notepath note date_format)
      (occupied.length + 1) 0

/-- Source `try_rename_note` (export.py): best-effort rename.  The filesystem
`rename` syscall is a parameter that either returns the updated tree or
raises; on success return the target path, on any failure return the
original path with the tree untouched. -/
def try_rename_note (renameOp : Filesystem → Path → Path → Except String Filesystem)
    (fs : Filesystem) (notePath : Path) (target_file : Path) : Path × Filesystem :=
  match renameOp fs notePath target_file with
  | .ok fs' => (target_file, fs')
  | .error _ => (notePath, fs)

/-- The remote id a file advertises to the indexer: defined when the file is
a note file whose header parses and carries a truthy `google_keep_id`. -/
def gidOf (f : File) : Option Value :=
  if isMd f.path then
    match f.read with
    | .ok meta =>
      match alookup "google_keep_id" meta with
      | some gid => if gid.truthy then some gid else none
      | none => none
    | _ => none
  else none

/-- The stored updated-timestamp parsed out of a file's header. -/
def tsOf (f : File) : Option Datetime :=
  match f.read with
  | .ok meta =>
    match alookup "timestamps" meta with
    | some (.dict ts) =>
      match alookup "updated" ts with
      | some (.int n) => some n
      | _ => none
    | _ => none
  | _ => none

/-- The raw string of an id value (the `LocalNote.id` field). -/
def gidString : Value → String
  | .prim (.str s) => s
  | _ => ""

/-- The `LocalNote` the indexer records for a file advertising id `gid`. -/
def localNoteOf (gid : Value) (f : File) : LocalNote :=
  { id := gidString gid, path := some f.path, timestamp_updated := tsOf f }

/-- One indexing step of the v2 indexer. -/
def indexFileV2 (idx : List (Value × LocalNote)) (f : File) : List (Value × LocalNote) :=
  match gidOf f with
  | some gid => dictInsert idx gid (localNoteOf gid f)
  | none => idx

/-- Modelled from the spec: `cli.py` imports `index_existing_files` (returning
`LocalNote` values) from the v2 `export.py`, which is absent from the sources;
spec §4.1: parse each note file's header, skip unreadable/unparsable files,
leave files without a (truthy) remote id unindexed, and register or overwrite
the `LocalNote` for the id with the file's path and its stored updated
timestamp (later files win). -/
def index_existing_files_v2 (files : Filesystem) : List (Value × LocalNote) :=
  files.foldl indexFileV2 []

/-- Delete a file from the tree (`path.unlink()`). -/
def removeFile (fs : Filesystem) (p : Path) : Filesystem := fs.filter (·.path ≠ p)

/-- Python `set(local_index.keys()).difference(set(keep_notes.keys()))`: indexed ids
absent from the remote snapshot. -/
def orphanIds (local_index : List (Value × LocalNote)) (keep_ids : List String) :
    List Value :=
  (local_index.map Prod.fst).filter (fun v => v ∉ keep_ids.map Value.str)

/-- Unlink the indexed file of each orphan id that has a known path,
counting the deletions. -/
def deleteOrphans (local_index : List (Value × LocalNote)) (ids : List Value)
    (acc : Filesystem × Nat) : Filesystem × Nat :=
  ids.foldl
    (fun acc v =>
      match dictGet local_index v with
      | some ln =>
        match ln.path with
        | some p => (removeFile acc.1 p, acc.2 + 1)
        | none => acc
      | none => acc)
    acc

/-- The orphan-handling block of `main` (export.py): compute the indexed ids
absent from the remote snapshot; delete their indexed files only when
`delete_local` is set, otherwise only report.  Returns the tree and the
number of note files deleted.  (The v2 `delete_local_only_files` wraps the
same note logic per spec §4.5.) -/
def delete_local_only_files (fs : Filesystem) (local_index : List (Value × LocalNote))
    (keep_ids : List String) (delete_local : Bool) : Filesystem × Nat :=
  let deleted_notes := orphanIds local_index keep_ids
  if deleted_notes.isEmpty then (fs, 0)
  else if delete_local then deleteOrphans local_index deleted_notes (fs, 0)
  else (fs, 0)

/-- Create or truncate-and-rewrite the file at `p` (`open(..., "wb+")`):
overwrite in place when present, append otherwise. -/
def setFile (fs : Filesystem) (p : Path) (r : ReadResult) : Filesystem :=
  if pathExists fs p then fs.map (fun f => if f.path = p then ⟨p, r⟩ else f)
  else fs ++ [⟨p, r⟩]

/-- Modelled from the spec: `write_note` of the v2 `export.py` is absent from
the sources; spec §4.4/§6: write metadata (via `build_frontmatter`) plus body
to the resolved path, or the body alone when the header is disabled (a
body-only file parses with an empty metadata mapping). -/
def write_note (fs : Filesystem) (target : Path) (header : Bool) (note : Note) :
    Filesystem :=
  if header then setFile fs target (.ok (build_frontmatter note "").metadata)
  else setFile fs target (.ok [])

/-- Move a file (`path.rename(target)` when the syscall succeeds). -/
def movePath (fs : Filesystem) (src target : Path) : Filesystem :=
  fs.map (fun f => if f.path = src then ⟨target, f.read⟩ else f)

/-- Concrete rename syscall driven by a success oracle (the environment
decides whether a given rename raises). -/
def renameOpOf (oracle : Path → Path → Bool) :
    Filesystem → Path → Path → Except String Filesystem :=
  fun fs src target =>
    if oracle src target then .ok (movePath fs src target) else .error "rename failed"

/-- Run configuration (the relevant CLI flags). -/
structure Config where
  notepath : Path
  header : Bool
  delete_local : Bool
  rename_local : Bool
  date_format : String

/-- The rename step of the per-note loop (`cli.py`): if the note has a local
path and renaming is enabled and the resolved target differs, attempt the
rename; otherwise keep the existing path (renaming is opt-in). -/
def rename_phase (renameOp : Filesystem → Path → Path → Except String Filesystem)
    (rename_local : Bool) (fs : Filesystem) (local_path : Option Path)
    (target_path : Path) : Path × Filesystem :=
  match local_path with
  | some lp =>
    if rename_local && lp ≠ target_path then try_rename_note renameOp fs lp target_path
    else (lp, fs)
  | none => (target_path, fs)

/-- Terminal outcome of the per-note state machine. -/
inductive Outcome where
  | skip
  | create
  | update
deriving DecidableEq, Repr

/-- The per-note loop body of `main` (cli.py): look up the `LocalNote`,
resolve the target path, run the rename step, and only then decide —
SKIP when the stored updated-timestamp equals the remote one, otherwise
UPDATE (prior note) or CREATE (no prior note), fetching media and writing
the file.  `mediaCount note` abstracts `download_media`'s download count. -/
def process_note (env : NameEnv) (renameOp : Filesystem → Path → Path → Except String Filesystem)
    (mediaCount : Note → Nat) (local_index : List (Value × LocalNote)) (cfg : Config)
    (fs : Filesystem) (note : Note) : Outcome × Filesystem × Nat :=
  let local_note := dictGet local_index (.str note.id)
  let target_path := build_note_unique_path env fs cfg.notepath note cfg.date_format local_index
  let local_path := (local_note.getD { id := note.id }).path
  let step := rename_phase renameOp cfg.rename_local fs local_path target_path
  let target_path := step.1
  let fs := step.2
  match local_note with
  | some ln =>
    if ln.timestamp_updated == some note.timestamps.updated then (.skip, fs, 0)
    else (.update, write_note fs target_path cfg.header note, mediaCount note)
  | none => (.create, write_note fs target_path cfg.header note, mediaCount note)

/-- Aggregate counters reported at the end of a run. -/
structure RunCounts where
  skipped : Nat
  updated : Nat
  created : Nat
  deleted : Nat
  downloaded : Nat
deriving DecidableEq, Repr

/-- The loop body of `main` (cli.py): process one note and accumulate the
counter matching its outcome. -/
def mainStep (env : NameEnv) (mediaCount : Note → Nat) (oracle : Path → Path → Bool)
    (local_index : List (Value × LocalNote)) (cfg : Config)
    (acc : Filesystem × RunCounts) (note : Note) : Filesystem × RunCounts :=
  match process_note env (renameOpOf oracle) mediaCount local_index cfg acc.1 note with
  | (.skip, fs', dl) =>
    (fs', { acc.2 with skipped := acc.2.skipped + 1,
                       downloaded := acc.2.downloaded + dl })
  | (.update, fs', dl) =>
    (fs', { acc.2 with updated := acc.2.updated + 1,
                       downloaded := acc.2.downloaded + dl })
  | (.create, fs', dl) =>
    (fs', { acc.2 with created := acc.2.created + 1,
                       downloaded := acc.2.downloaded + dl })

/-- Source `main` (cli.py): one full reconciliation run — index the local tree,
handle orphans, then fold the per-note state machine over the remote
snapshot, accumulating the reported counters. -/
def main (env : NameEnv) (mediaCount : Note → Nat) (oracle : Path → Path → Bool)
    (cfg : Config) (remote : List Note) (fs : Filesystem) : Filesystem × RunCounts :=
  let local_index := index_existing_files_v2 fs
  let keep_ids := remote.map (·.id)
  let del := delete_local_only_files fs local_index keep_ids cfg.delete_local
  remote.foldl (mainStep env mediaCount oracle local_index cfg)
    (del.1, { skipped := 0, updated := 0, created := 0, deleted := del.2, downloaded := 0 })

/-! ## Frontmatter metadata keys -/

/-- The full key list of a written metadata header. -/
def metadataKeys : List String :=
  ["google_keep_id", "title", "pinned", "trashed", "deleted", "color", "type",
   "parent_id", "sort", "url", "tags", "timestamps"]

theorem alookup_timestamps (note : Note) (markdown : String) :
    alookup "timestamps" (build_frontmatter note markdown).metadata =
      some (.dict (frontmatterTimestamps note)) := rfl

/-- C9: the written header always carries exactly the listed top-level keys;
inside `timestamps`, `created`/`edited`/`updated` are always present, while
`trashed` (resp. `deleted`) is present exactly when the corresponding
timestamp exists and its year exceeds 1970. -/
theorem frontmatter_conditional_keys (note : Note) (markdown : String) :
    ((build_frontmatter note markdown).metadata.map Prod.fst = metadataKeys) ∧
    (alookup "timestamps" (build_frontmatter note markdown).metadata =
      some (.dict (frontmatterTimestamps note))) ∧
    ("created" ∈ (frontmatterTimestamps note).map Prod.fst ∧
     "edited" ∈ (frontmatterTimestamps note).map Prod.fst ∧
     "updated" ∈ (frontmatterTimestamps note).map Prod.fst) ∧
    ("trashed" ∈ (frontmatterTimestamps note).map Prod.fst ↔
      ∃ t, note.timestamps.trashed = some t ∧ t.year > 1970) ∧
    ("deleted" ∈ (frontmatterTimestamps note).map Prod.fst ↔
      ∃ t, note.timestamps.deleted = some t ∧ t.year > 1970) := by
  refine ⟨rfl, rfl, ?_⟩
  rcases htr : note.timestamps.trashed with _ | t <;>
    rcases hde : note.timestamps.deleted with _ | d
  · simp [frontmatterTimestamps, build_frontmatter, alookup, htr, hde]
  · by_cases hy : d.year > 1970 <;>
      simp [frontmatterTimestamps, build_frontmatter, alookup, htr, hde, hy]
  · by_cases hy : t.year > 1970 <;>
      simp [frontmatterTimestamps, build_frontmatter, alookup, htr, hde, hy]
  · by_cases hy : t.year > 1970 <;> by_cases hy' : d.year > 1970 <;>
      simp [frontmatterTimestamps, build_frontmatter, alookup, htr, hde, hy, hy']

/-! ## Path stability and anti-oscillation -/

/-- C3: a note already at its canonical location resolves to the same path. -/
theorem path_stability (env : NameEnv) (fs : Filesystem) (notepath : Path)
    (note : Note) (fmt : String) (idx : List (Value × LocalNote)) (ln : LocalNote)
    (hln : dictGet idx (Value.str note.id) = some ln)
    (hpath : ln.path = some (candidatePath env notepath note fmt)) :
    build_note_unique_path env fs notepath note fmt idx =
      candidatePath env notepath note fmt := by
  unfold build_note_unique_path
  simp [hln, hpath]

/-- C4: a note whose candidate differs from its current path but is already
occupied keeps its existing path (no rename into an occupied slot). -/
theorem anti_oscillation (env : NameEnv) (fs : Filesystem) (notepath : Path)
    (note : Note) (fmt : String) (idx : List (Value × LocalNote)) (ln : LocalNote)
    (p : Path) (hln : dictGet idx (Value.str note.id) = some ln)
    (hpath : ln.path = some p) (hne : p ≠ candidatePath env notepath note fmt)
    (hocc : pathExists fs (candidatePath env notepath note fmt) = true) :
    build_note_unique_path env fs notepath note fmt idx = p := by
  unfold build_note_unique_path
  simp [hln, hpath, hocc, hne]

/-- Identity sanitizer with a fixed-date formatter, for concrete instances. -/
def envW : NameEnv := { sanitize := fun s => s, strftime := fun _ _ => "2024-01-01" }

/-- A concrete remote note used in concrete instances. -/
def noteW : Note :=
  { id := "42", title := "Groceries", pinned := false, trashed := false,
    deleted := false, color := "WHITE", type := "NOTE", parent_id := "root",
    sort := "1", url := "", labels := [],
    timestamps := { created := 0, edited := 0, updated := 100,
                    trashed := none, deleted := none } }

/-- Concrete instance of C3: the note indexed at its canonical path keeps it. -/
theorem path_stability_witness :
    build_note_unique_path envW [] ["out"] noteW "%Y-%m-%d"
      [(Value.str "42",
        { id := "42", path := some ["out", "2024-01-01 - Groceries.md"],
          timestamp_updated := some 100 })] =
      ["out", "2024-01-01 - Groceries.md"] :=
  path_stability envW [] ["out"] noteW "%Y-%m-%d" _
    { id := "42", path := some ["out", "2024-01-01 - Groceries.md"],
      timestamp_updated := some 100 }
    rfl rfl

/-- Concrete instance of C4: the candidate is occupied by another file, so the
note keeps its existing name. -/
theorem anti_oscillation_witness :
    build_note_unique_path envW [⟨["out", "2024-01-01 - Groceries.md"], .ok []⟩]
      ["out"] noteW "%Y-%m-%d"
      [(Value.str "42",
        { id := "42", path := some ["out", "old.md"], timestamp_updated := some 100 })] =
      ["out", "old.md"] :=
  anti_oscillation envW [⟨["out", "2024-01-01 - Groceries.md"], .ok []⟩] ["out"]
    noteW "%Y-%m-%d" _
    { id := "42", path := some ["out", "old.md"], timestamp_updated := some 100 }
    ["out", "old.md"] rfl rfl (by decide) rfl

/-! ## Best-effort rename -/

/-- C6: `try_rename_note` returns the target path exactly when the rename
succeeded, and on any failure returns the original path with the tree
untouched — the failure is absorbed, never propagated. -/
theorem rename_best_effort (renameOp : Filesystem → Path → Path → Except String Filesystem)
    (fs : Filesystem) (notePath target : Path) :
    (∀ fs', renameOp fs notePath target = .ok fs' →
      try_rename_note renameOp fs notePath target = (target, fs')) ∧
    (∀ e, renameOp fs notePath target = .error e →
      try_rename_note renameOp fs notePath target = (notePath, fs)) := by
  constructor <;> intro x h <;> simp [try_rename_note, h]

/-- Concrete instances of C6: a succeeding rename yields the target path,
a failing one yields the original path and the unchanged tree. -/
theorem rename_best_effort_witness :
    try_rename_note (renameOpOf fun _ _ => true) [] ["a"] ["b"] = (["b"], []) ∧
    try_rename_note (renameOpOf fun _ _ => false) [] ["a"] ["b"] = (["a"], []) :=
  ⟨(rename_best_effort (renameOpOf fun _ _ => true) [] ["a"] ["b"]).1 [] rfl,
   (rename_best_effort (renameOpOf fun _ _ => false) [] ["a"] ["b"]).2 "rename failed" rfl⟩

/-! ## Orphan handling -/

theorem mem_removeFile (fs : Filesystem) (p : Path) (f : File) :
    f ∈ removeFile fs p ↔ f ∈ fs ∧ f.path ≠ p := by
  simp [removeFile, List.mem_filter]

theorem mem_deleteOrphans (local_index : List (Value × LocalNote)) (ids : List Value)
    (fs : Filesystem) (n : Nat) (f : File) :
    f ∈ (deleteOrphans local_index ids (fs, n)).1 ↔
      f ∈ fs ∧ ∀ v ∈ ids, ∀ ln, dictGet local_index v = some ln →
        ln.path ≠ some f.path := by
  induction ids generalizing fs n with
  | nil => simp [deleteOrphans]
  | cons v vs ih =>
    rcases hv : dictGet local_index v with _ | ln
    · have step : deleteOrphans local_index (v :: vs) (fs, n) =
          deleteOrphans local_index vs (fs, n) := by
        simp only [deleteOrphans, List.foldl_cons, hv]
      rw [step]
      simp only [ih]
      constructor
      · rintro ⟨hf, hrest⟩
        refine ⟨hf, ?_⟩
        intro w hw ln' hln'
        rcases List.mem_cons.mp hw with rfl | hw'
        · rw [hv] at hln'; cases hln'
        · exact hrest w hw' ln' hln'
      · rintro ⟨hf, hall⟩
        exact ⟨hf, fun w hw ln' hln' => hall w (List.mem_cons_of_mem v hw) ln' hln'⟩
    · rcases hp : ln.path with _ | p
      · have step : deleteOrphans local_index (v :: vs) (fs, n) =
            deleteOrphans local_index vs (fs, n) := by
          simp only [deleteOrphans, List.foldl_cons, hv, hp]
        rw [step]
        simp only [ih]
        constructor
        · rintro ⟨hf, hrest⟩
          refine ⟨hf, ?_⟩
          intro w hw ln' hln'
          rcases List.mem_cons.mp hw with rfl | hw'
          · rw [hv] at hln'; cases hln'; rw [hp]; simp
          · exact hrest w hw' ln' hln'
        · rintro ⟨hf, hall⟩
          exact ⟨hf, fun w hw ln' hln' => hall w (List.mem_cons_of_mem v hw) ln' hln'⟩
      · have step : deleteOrphans local_index (v :: vs) (fs, n) =
            deleteOrphans local_index vs (removeFile fs p, n + 1) := by
          simp only [deleteOrphans, List.foldl_cons, hv, hp]
        rw [step]
        simp only [ih, mem_removeFile]
        constructor
        · rintro ⟨⟨hf, hfp⟩, hrest⟩
          refine ⟨hf, ?_⟩
          intro w hw ln' hln'
          rcases List.mem_cons.mp hw with rfl | hw'
          · rw [hv] at hln'; cases hln'; rw [hp]
            intro hcontra; exact hfp (by injection hcontra with h; exact h.symm ▸ rfl)
          · exact hrest w hw' ln' hln'
        · rintro ⟨hf, hall⟩
          refine ⟨⟨hf, ?_⟩, fun w hw ln' hln' => hall w (List.mem_cons_of_mem v hw) ln' hln'⟩
          have := hall v (List.mem_cons_self v vs) ln hv
          rw [hp] at this
          intro hfp
          exact this (by rw [hfp])

theorem delete_unauthorized_eq (fs : Filesystem) (local_index : List (Value × LocalNote))
    (keep_ids : List String) :
    (delete_local_only_files fs local_index keep_ids false).1 = fs := by
  simp [delete_local_only_files]

theorem mem_delete_authorized (fs : Filesystem) (local_index : List (Value × LocalNote))
    (keep_ids : List String) (f : File) :
    f ∈ (delete_local_only_files fs local_index keep_ids true).1 ↔
      f ∈ fs ∧ ¬ ∃ v ∈ orphanIds local_index keep_ids,
        ∃ ln, dictGet local_index v = some ln ∧ ln.path = some f.path := by
  by_cases hids : (orphanIds local_index keep_ids).isEmpty = true
  · have hempty : orphanIds local_index keep_ids = [] := List.isEmpty_iff.mp hids
    simp [delete_local_only_files, hids, hempty]
  · have hd : delete_local_only_files fs local_index keep_ids true =
        deleteOrphans local_index (orphanIds local_index keep_ids) (fs, 0) := by
      unfold delete_local_only_files
      rw [if_neg hids, if_pos rfl]
    rw [hd, mem_deleteOrphans]
    constructor
    · rintro ⟨hf, hall⟩
      refine ⟨hf, ?_⟩
      rintro ⟨v, hv, ln, hln, hpath⟩
      exact hall v hv ln hln hpath
    · rintro ⟨hf, hnone⟩
      exact ⟨hf, fun v hv ln hln hpath => hnone ⟨v, hv, ln, hln, hpath⟩⟩

/-- C7: with deletion unauthorized the orphan step leaves the tree untouched
(the orphans are only reported); with deletion authorized a file survives
exactly when it is not the indexed file of an orphan id. -/
theorem orphan_deletion_gating (fs : Filesystem) (local_index : List (Value × LocalNote))
    (keep_ids : List String) :
    ((delete_local_only_files fs local_index keep_ids false).1 = fs) ∧
    (∀ f, f ∈ (delete_local_only_files fs local_index keep_ids true).1 ↔
      f ∈ fs ∧ ¬ ∃ v ∈ orphanIds local_index keep_ids,
        ∃ ln, dictGet local_index v = some ln ∧ ln.path = some f.path) :=
  ⟨delete_unauthorized_eq fs local_index keep_ids,
   mem_delete_authorized fs local_index keep_ids⟩

/-! ## Decimal rendering is injective

`build_note_unique_path` embeds `dedupe_index` into the filename via
`Nat.repr`; distinct indices must give distinct names for the dedupe loop
to terminate on a fresh path. -/

/-- Decimal digit characters of `n`, most significant first — the list
`Nat.toDigits 10 n` produces. -/
def decDigits (n : Nat) : List Char :=
  if hn : n < 10 then [Nat.digitChar n]
  else
    have : n / 10 < n := Nat.div_lt_self (by omega) (by omega)
    decDigits (n / 10) ++ [Nat.digitChar (n % 10)]

theorem toDigitsCore_eq_decDigits (fuel : Nat) :
    ∀ (n : Nat) (ds : List Char), 0 < fuel → n < 10 ^ fuel →
      Nat.toDigitsCore 10 fuel n ds = decDigits n ++ ds := by
  induction fuel with
  | zero => intro n ds h; omega
  | succ fuel ih =>
    intro n ds _ hlt
    show (if n / 10 = 0 then Nat.digitChar (n % 10) :: ds
          else Nat.toDigitsCore 10 fuel (n / 10) (Nat.digitChar (n % 10) :: ds)) =
      decDigits n ++ ds
    by_cases hsmall : n / 10 = 0
    · have h10 : n < 10 := by omega
      rw [if_pos hsmall, decDigits, dif_pos h10, Nat.mod_eq_of_lt h10]
      rfl
    · have h10 : ¬ n < 10 := by omega
      have hfuel : 0 < fuel := by
        rcases Nat.eq_zero_or_pos fuel with rfl | h
        · simp at hlt; omega
        · exact h
      have hdiv : n / 10 < 10 ^ fuel := by
        apply Nat.div_lt_of_lt_mul
        have hpow : (10 : Nat) ^ (fuel + 1) = 10 * 10 ^ fuel := by ring
        omega
      have hexp : decDigits n = decDigits (n / 10) ++ [Nat.digitChar (n % 10)] := by
        rw [decDigits]
        rw [dif_neg h10]
      rw [if_neg hsmall, ih (n / 10) (Nat.digitChar (n % 10) :: ds) hfuel hdiv,
          hexp, List.append_assoc]
      rfl

theorem toDigits_eq_decDigits (n : Nat) : Nat.toDigits 10 n = decDigits n := by
  have h1 : n < 10 ^ (n + 1) := by
    calc n < n + 1 := Nat.lt_succ_self n
      _ ≤ 10 ^ (n + 1) := Nat.le_of_lt (Nat.lt_pow_self (by norm_num) (n + 1))
  have := toDigitsCore_eq_decDigits (n + 1) n [] (Nat.succ_pos n) h1
  simpa [Nat.toDigits] using this

/-- Decimal value of a digit-character list, most significant first. -/
def decVal (cs : List Char) : Nat :=
  cs.foldl (fun a c => 10 * a + (c.toNat - 48)) 0

theorem decVal_decDigits : ∀ n : Nat, decVal (decDigits n) = n := by
  intro n
  induction n using Nat.strong_induction_on with
  | _ n ih =>
    by_cases h : n < 10
    · have : ∀ d : Nat, d < 10 → (Nat.digitChar d).toNat - 48 = d := by decide
      rw [decDigits, dif_pos h]
      simp [decVal, this n h]
    · have hpos : 0 < n := by omega
      have hdiv : n / 10 < n := Nat.div_lt_self hpos (by omega)
      have hdigit : ∀ d : Nat, d < 10 → (Nat.digitChar d).toNat - 48 = d := by decide
      rw [decDigits, dif_neg h]
      have : decVal (decDigits (n / 10) ++ [Nat.digitChar (n % 10)]) =
          10 * decVal (decDigits (n / 10)) + ((Nat.digitChar (n % 10)).toNat - 48) := by
        simp [decVal, List.foldl_append]
      rw [this, ih (n / 10) hdiv, hdigit (n % 10) (Nat.mod_lt n (by omega))]
      omega

theorem natRepr_injective : Function.Injective Nat.repr := by
  intro m n h
  have hd : decDigits m = decDigits n := by
    have : (Nat.toDigits 10 m).asString = (Nat.toDigits 10 n).asString := h
    have hdata := congrArg String.data this
    simpa [toDigits_eq_decDigits] using hdata
  have := congrArg decVal hd
  simpa [decVal_decDigits] using this

/-! ## Collision avoidance for new notes -/

theorem dedupeCandidate_injective (env : NameEnv) (notepath : Path) (note : Note)
    (fmt : String) : Function.Injective (dedupeCandidate env notepath note fmt) := by
  intro m n h
  by_contra hne
  have unfolded : ∀ k : Nat, dedupeCandidate env notepath note fmt k =
      notepath ++ [if k = 0 then noteStem env note fmt ++ ".md"
                   else noteStem env note fmt ++ "." ++ note.id ++ "." ++
                        Nat.repr k ++ ".md"] := by
    intro k
    by_cases hk : k = 0 <;> simp [dedupeCandidate, candidatePath, hk]
  rw [unfolded m, unfolded n] at h
  have hstr : (if m = 0 then noteStem env note fmt ++ ".md"
               else noteStem env note fmt ++ "." ++ note.id ++ "." ++ Nat.repr m ++ ".md") =
      (if n = 0 then noteStem env note fmt ++ ".md"
       else noteStem env note fmt ++ "." ++ note.id ++ "." ++ Nat.repr n ++ ".md") := by
    have := List.append_cancel_left h
    injection this
  have lenOne : (".".data.length : Nat) = 1 := rfl
  have lenMd : (".md".data.length : Nat) = 3 := rfl
  by_cases hm : m = 0 <;> by_cases hn : n = 0
  · exact hne (hm.trans hn.symm)
  · rw [if_pos hm, if_neg hn] at hstr
    have hlen := congrArg (fun s => s.data.length) hstr
    simp only [String.data_append, List.length_append, lenOne, lenMd] at hlen
    omega
  · rw [if_neg hm, if_pos hn] at hstr
    have hlen := congrArg (fun s => s.data.length) hstr
    simp only [String.data_append, List.length_append, lenOne, lenMd] at hlen
    omega
  · rw [if_neg hm, if_neg hn] at hstr
    have hdata := congrArg String.data hstr
    simp only [String.data_append, List.append_assoc] at hdata
    have h1 := List.append_cancel_left hdata
    have h2 := List.append_cancel_left h1
    have h3 := List.append_cancel_left h2
    have h4 := List.append_cancel_left h3
    have h5 := List.append_cancel_right h4
    exact hne (natRepr_injective (String.ext h5))

theorem dedupeLoop_spec (occ : List Path) (cand : Nat → Path) :
    ∀ (fuel i : Nat), (∃ j, i ≤ j ∧ j < i + fuel ∧ cand j ∉ occ) →
      ∃ j, i ≤ j ∧ dedupeLoop occ cand fuel i = cand j ∧ cand j ∉ occ ∧
        ∀ m, i ≤ m → m < j → cand m ∈ occ := by
  intro fuel
  induction fuel with
  | zero =>
    intro i ⟨j, h1, h2, _⟩
    omega
  | succ fuel ih =>
    intro i hfree
    by_cases h : cand i ∈ occ
    · obtain ⟨j, hj1, hj2, hj3⟩ := hfree
      have hji : j ≠ i := fun hji => hj3 (hji ▸ h)
      obtain ⟨j', h1, h2, h3, h4⟩ := ih (i + 1) ⟨j, by omega, by omega, hj3⟩
      refine ⟨j', by omega, ?_, h3, ?_⟩
      · rw [dedupeLoop, if_pos h]
        exact h2
      · intro m hm1 hm2
        rcases Nat.eq_or_lt_of_le hm1 with rfl | hlt
        · exact h
        · exact h4 m hlt hm2
    · refine ⟨i, le_rfl, ?_, h, fun m h1 h2 => absurd h2 (Nat.not_lt.mpr h1)⟩
      rw [dedupeLoop, if_neg h]

theorem exists_free_candidate (occ : List Path) (cand : Nat → Path)
    (hinj : Function.Injective cand) (i : Nat) :
    ∃ j, i ≤ j ∧ j < i + (occ.length + 1) ∧ cand j ∉ occ := by
  by_contra hcon
  push_neg at hcon
  have hsub : ((List.range (occ.length + 1)).map fun k => cand (i + k)) ⊆ occ := by
    intro p hp
    rcases List.mem_map.mp hp with ⟨k, hk, rfl⟩
    exact hcon (i + k) (by omega) (by have := List.mem_range.mp hk; omega)
  have hnd : ((List.range (occ.length + 1)).map fun k => cand (i + k)).Nodup := by
    apply List.Nodup.map
    · intro a b hab
      have := hinj hab
      omega
    · exact List.nodup_range _
  have := (List.Nodup.subperm hnd hsub).length_le
  simp at this

theorem pathExists_iff (fs : Filesystem) (p : Path) :
    pathExists fs p = true ↔ p ∈ fs.map (fun f => f.path) := by
  simp only [pathExists, List.any_eq_true, decide_eq_true_eq, List.mem_map]

theorem pathExists_eq_false (fs : Filesystem) (p : Path)
    (hp : p ∉ fs.map (fun f => f.path)) : pathExists fs p = false := by
  rcases hpe : pathExists fs p with _ | _
  · rfl
  · exact absurd ((pathExists_iff fs p).mp hpe) hp

/-- The resolved path of a note with no indexed entry is never an existing
path (the dedupe loop checks existence before returning). -/
theorem build_new_fresh (env : NameEnv) (fs : Filesystem) (notepath : Path)
    (note : Note) (fmt : String) (idx : List (Value × LocalNote))
    (hnew : dictGet idx (Value.str note.id) = none) :
    pathExists fs (build_note_unique_path env fs notepath note fmt idx) = false := by
  have hbuild : build_note_unique_path env fs notepath note fmt idx =
      dedupeLoop (fs.map (fun f => f.path)) (dedupeCandidate env notepath note fmt)
        ((fs.map (fun f => f.path)).length + 1) 0 := by
    unfold build_note_unique_path
    rw [hnew]
  obtain ⟨j, hj0, hjeq, hjfree, hjmin⟩ :=
    dedupeLoop_spec (fs.map (fun f => f.path)) (dedupeCandidate env notepath note fmt)
      ((fs.map (fun f => f.path)).length + 1) 0
      (exists_free_candidate (fs.map (fun f => f.path))
        (dedupeCandidate env notepath note fmt)
        (dedupeCandidate_injective env notepath note fmt) 0)
  rw [hbuild, hjeq]
  exact pathExists_eq_false _ _ hjfree

/-- C5: for a note with no indexed local path, the resolved path never
collides with an existing file; the plain candidate is used when free, and
otherwise the result carries the `.{id}.{n}` dedupe suffix with the smallest
free `n` starting at 1. -/
theorem collision_avoidance (env : NameEnv) (fs : Filesystem) (notepath : Path)
    (note : Note) (fmt : String) (idx : List (Value × LocalNote))
    (hnew : dictGet idx (Value.str note.id) = none) :
    (pathExists fs (build_note_unique_path env fs notepath note fmt idx) = false) ∧
    (pathExists fs (candidatePath env notepath note fmt) = false →
      build_note_unique_path env fs notepath note fmt idx =
        candidatePath env notepath note fmt) ∧
    (pathExists fs (candidatePath env notepath note fmt) = true →
      ∃ n, 1 ≤ n ∧
        build_note_unique_path env fs notepath note fmt idx =
          dedupeCandidate env notepath note fmt n ∧
        pathExists fs (dedupeCandidate env notepath note fmt n) = false ∧
        ∀ m, 1 ≤ m → m < n →
          pathExists fs (dedupeCandidate env notepath note fmt m) = true) := by
  have hbuild : build_note_unique_path env fs notepath note fmt idx =
      dedupeLoop (fs.map (fun f => f.path)) (dedupeCandidate env notepath note fmt)
        ((fs.map (fun f => f.path)).length + 1) 0 := by
    unfold build_note_unique_path
    rw [hnew]
  obtain ⟨j, hj0, hjeq, hjfree, hjmin⟩ :=
    dedupeLoop_spec (fs.map (fun f => f.path)) (dedupeCandidate env notepath note fmt)
      ((fs.map (fun f => f.path)).length + 1) 0
      (by
        obtain ⟨j, h1, h2, h3⟩ :=
          exists_free_candidate (fs.map (fun f => f.path))
            (dedupeCandidate env notepath note fmt)
            (dedupeCandidate_injective env notepath note fmt) 0
        exact ⟨j, h1, h2, h3⟩)
  have hcand0 : dedupeCandidate env notepath note fmt 0 =
      candidatePath env notepath note fmt := by
    simp [dedupeCandidate]
  refine ⟨?_, ?_, ?_⟩
  · rw [hbuild, hjeq]
    exact pathExists_eq_false _ _ hjfree
  · intro hfree
    rcases Nat.eq_zero_or_pos j with rfl | hj
    · rw [hbuild, hjeq, hcand0]
    · exfalso
      have := hjmin 0 (Nat.le_refl 0) hj
      rw [hcand0, ← pathExists_iff] at this
      rw [this] at hfree
      cases hfree
  · intro htaken
    have hj1 : 1 ≤ j := by
      rcases Nat.eq_zero_or_pos j with rfl | hj
      · exfalso
        have h0 : pathExists fs (dedupeCandidate env notepath note fmt 0) = true := by
          rw [hcand0]; exact htaken
        exact hjfree ((pathExists_iff _ _).mp h0)
      · exact hj
    refine ⟨j, hj1, by rw [hbuild, hjeq], pathExists_eq_false _ _ hjfree, ?_⟩
    intro m hm1 hmj
    rw [pathExists_iff]
    exact hjmin m (Nat.zero_le m) hmj

/-- A second concrete remote note sharing `noteW`'s title and creation date. -/
def noteW2 : Note := { noteW with id := "43" }

/-- Concrete instance of C5: with no pre-existing files the first of two
identically-named notes gets the plain name; processed after it, the second
gets the `.{id}.1` dedupe suffix, a path that does not collide. -/
theorem collision_avoidance_witness :
    build_note_unique_path envW [] ["out"] noteW "%Y-%m-%d" [] =
      ["out", "2024-01-01 - Groceries.md"] ∧
    build_note_unique_path envW [⟨["out", "2024-01-01 - Groceries.md"], .ok []⟩]
      ["out"] noteW2 "%Y-%m-%d" [] = ["out", "2024-01-01 - Groceries.43.1.md"] ∧
    pathExists [⟨["out", "2024-01-01 - Groceries.md"], .ok []⟩]
      (build_note_unique_path envW [⟨["out", "2024-01-01 - Groceries.md"], .ok []⟩]
        ["out"] noteW2 "%Y-%m-%d" []) = false :=
  ⟨(collision_avoidance envW [] ["out"] noteW "%Y-%m-%d" [] rfl).2.1 rfl,
   rfl,
   (collision_avoidance envW [⟨["out", "2024-01-01 - Groceries.md"], .ok []⟩]
     ["out"] noteW2 "%Y-%m-%d" [] rfl).1⟩

/-! ## The SKIP decision -/

/-- C2: for a note with an indexed `LocalNote`, the per-note outcome is SKIP
exactly when the stored `timestamp_updated` equals the remote note's updated
timestamp; and a SKIP performs no write and no media fetch — the tree is
exactly what the rename step (which runs before the decision) left behind. -/
theorem skip_decision (env : NameEnv)
    (renameOp : Filesystem → Path → Path → Except String Filesystem)
    (mediaCount : Note → Nat) (idx : List (Value × LocalNote)) (cfg : Config)
    (fs : Filesystem) (note : Note) (ln : LocalNote)
    (hln : dictGet idx (Value.str note.id) = some ln) :
    ((process_note env renameOp mediaCount idx cfg fs note).1 = .skip ↔
      ln.timestamp_updated = some note.timestamps.updated) ∧
    ((process_note env renameOp mediaCount idx cfg fs note).1 = .skip →
      process_note env renameOp mediaCount idx cfg fs note =
        (.skip,
         (rename_phase renameOp cfg.rename_local fs ln.path
           (build_note_unique_path env fs cfg.notepath note cfg.date_format idx)).2,
         0)) := by
  unfold process_note
  simp only [hln, Option.getD_some]
  rcases hbeq : ln.timestamp_updated == some note.timestamps.updated with _ | _
  · have hne := beq_eq_false_iff_ne.mp hbeq
    simp [hbeq, hne]
  · have heq := beq_iff_eq.mp hbeq
    simp [hbeq, heq]

/-- Concrete run configuration for witnesses. -/
def cfgW : Config :=
  { notepath := ["out"], header := true, delete_local := false,
    rename_local := false, date_format := "%Y-%m-%d" }

/-- Concrete instance of C2: a note whose stored timestamp matches is
SKIPped with zero media downloads. -/
theorem skip_decision_witness :
    (process_note envW (renameOpOf fun _ _ => true) (fun _ => 5)
      [(Value.str "42",
        { id := "42", path := some ["out", "2024-01-01 - Groceries.md"],
          timestamp_updated := some 100 })]
      cfgW [⟨["out", "2024-01-01 - Groceries.md"], .ok []⟩] noteW).1 = .skip ∧
    (process_note envW (renameOpOf fun _ _ => true) (fun _ => 5)
      [(Value.str "42",
        { id := "42", path := some ["out", "2024-01-01 - Groceries.md"],
          timestamp_updated := some 100 })]
      cfgW [⟨["out", "2024-01-01 - Groceries.md"], .ok []⟩] noteW).2.2 = 0 :=
  have h := skip_decision envW (renameOpOf fun _ _ => true) (fun _ => 5)
    [(Value.str "42",
      { id := "42", path := some ["out", "2024-01-01 - Groceries.md"],
        timestamp_updated := some 100 })]
    cfgW [⟨["out", "2024-01-01 - Groceries.md"], .ok []⟩] noteW
    { id := "42", path := some ["out", "2024-01-01 - Groceries.md"],
      timestamp_updated := some 100 } rfl
  ⟨h.1.mpr rfl, by rw [h.2 (h.1.mpr rfl)]⟩

/-! ## Indexing error handling -/

/-- C8 (the code as written): a directory holding a single note file whose
open raises `IOError` is indexed "successfully" with a reported error count
of `0` — the handler resets the counter instead of incrementing it — and a
note file whose header fails to parse aborts indexing entirely instead of
being counted and skipped. -/
theorem indexing_error_counter_stuck_at_zero :
    index_existing_files [⟨["a.md"], .ioError⟩] =
      .ok { index := [], keep_notes := 0, unknown_notes := 0, errors := 0, media := 0 } ∧
    index_existing_files [⟨["b.md"], .parseError⟩] = .error "frontmatter parse error" :=
  ⟨rfl, rfl⟩

/-- C10: any markdown file whose header parses but lacks a `timestamps`
mapping makes `index_existing_files` raise (the `NoneType.get` dereference
happens before the id check), aborting the whole run — even for foreign
markdown files carrying no remote id at all. -/
theorem indexing_aborts_on_missing_timestamps (files : Filesystem) (f : File)
    (meta : List (String × Value)) (hmem : f ∈ files) (hmd : isMd f.path = true)
    (hread : f.read = .ok meta) (hts : alookup "timestamps" meta = none) :
    ∃ e, index_existing_files files = .error e := by
  have key : ∀ (rest : Filesystem) (st : IndexState), f ∈ rest →
      ∃ e, rest.foldlM indexFile st = .error e := by
    intro rest
    induction rest with
    | nil => intro st h; cases h
    | cons g gs ih =>
      intro st h
      rcases List.mem_cons.mp h with rfl | hmem'
      · refine ⟨"AttributeError: NoneType has no attribute get", ?_⟩
        simp only [List.foldlM_cons, indexFile, hmd, hread, hts, if_true]
        rfl
      · rcases hg : indexFile st g with e | st'
        · exact ⟨e, by rw [List.foldlM_cons, hg]; rfl⟩
        · rcases ih st' hmem' with ⟨e, he⟩
          exact ⟨e, by rw [List.foldlM_cons, hg]; exact he⟩
  exact key files _ hmem

/-- Concrete instance of C10: a lone foreign markdown file with parseable
frontmatter and no `timestamps` mapping aborts indexing. -/
theorem indexing_aborts_on_missing_timestamps_witness :
    ∃ e, index_existing_files [⟨["note.md"], .ok [("title", .str "hello")]⟩] = .error e :=
  indexing_aborts_on_missing_timestamps _ ⟨["note.md"], .ok [("title", .str "hello")]⟩
    [("title", .str "hello")] (List.mem_singleton.mpr rfl) (by decide) rfl rfl

/-! ## Idempotence -/

/-- Two local files both claiming the orphan id `Y`. -/
def fsDup : Filesystem :=
  [⟨["a.md"], .ok [("google_keep_id", .str "Y"),
                   ("timestamps", .dict [("updated", .int 5)])]⟩,
   ⟨["b.md"], .ok [("google_keep_id", .str "Y"),
                   ("timestamps", .dict [("updated", .int 5)])]⟩]

/-- A run configuration with deletion authorized. -/
def cfgDel : Config :=
  { notepath := ["out"], header := true, delete_local := true,
    rename_local := false, date_format := "%Y-%m-%d" }

/-- C1 fails as stated: when two local files claim the same orphan id, each
run deletes only the indexed (later) file, so the second run over the same
unchanged (empty) remote snapshot still performs one delete. -/
theorem idempotence_counterexample :
    (main envW (fun _ => 0) (fun _ _ => true) cfgDel []
      (main envW (fun _ => 0) (fun _ _ => true) cfgDel [] fsDup).1).2.deleted = 1 ∧
    ¬ (main envW (fun _ => 0) (fun _ _ => true) cfgDel []
      (main envW (fun _ => 0) (fun _ _ => true) cfgDel [] fsDup).1).2.deleted = 0 := by
  constructor <;> decide

/-! ### Dictionary and index characterization -/

theorem find?_cons_key {κ α : Type} [DecidableEq κ] (a : κ × α) (idx : List (κ × α))
    (v : κ) : (a :: idx).find? (·.1 = v) =
      if a.1 = v then some a else idx.find? (·.1 = v) := by
  by_cases h : a.1 = v
  · rw [List.find?_cons_of_pos _ (by simpa using h), if_pos h]
  · rw [List.find?_cons_of_neg _ (by simpa using h), if_neg h]

theorem find?_eq_none_of_not_contains {κ α : Type} [DecidableEq κ]
    (idx : List (κ × α)) (k : κ) (hc : ¬ (idx.map Prod.fst).contains k = true) :
    idx.find? (·.1 = k) = none := by
  rw [List.find?_eq_none]
  intro kv hkv
  simp only [decide_eq_true_eq]
  intro hk
  exact hc (by simp only [List.elem_iff]; exact List.mem_map.mpr ⟨kv, hkv, hk⟩)

theorem dictGet_map_overwrite {κ α : Type} [DecidableEq κ]
    (idx : List (κ × α)) (k : κ) (x : α) (hc : (idx.map Prod.fst).contains k = true) :
    dictGet (idx.map (fun kv => if kv.1 = k then (k, x) else kv)) k = some x := by
  induction idx with
  | nil => simp at hc
  | cons a idx ih =>
    by_cases hak : a.1 = k
    · simp only [dictGet, List.map_cons, if_pos hak]
      rw [find?_cons_key]
      simp
    · have hc' : (idx.map Prod.fst).contains k = true := by
        simp only [List.elem_iff, List.map_cons, List.mem_cons] at hc ⊢
        rcases hc with h | h
        · exact absurd h.symm hak
        · exact h
      simp only [dictGet, List.map_cons, if_neg hak] at ih ⊢
      rw [find?_cons_key, if_neg hak]
      exact ih hc'

theorem dictGet_map_other {κ α : Type} [DecidableEq κ]
    (idx : List (κ × α)) (k : κ) (x : α) (v : κ) (hvk : v ≠ k) :
    dictGet (idx.map (fun kv => if kv.1 = k then (k, x) else kv)) v = dictGet idx v := by
  induction idx with
  | nil => rfl
  | cons a idx ih =>
    by_cases hak : a.1 = k
    · simp only [dictGet, List.map_cons, if_pos hak] at ih ⊢
      rw [find?_cons_key, find?_cons_key, if_neg (fun h => hvk h.symm),
          if_neg (fun h => hvk ((hak.symm.trans h).symm))]
      exact ih
    · simp only [dictGet, List.map_cons, if_neg hak] at ih ⊢
      rw [find?_cons_key, find?_cons_key]
      by_cases hav : a.1 = v
      · rw [if_pos hav, if_pos hav]
      · rw [if_neg hav, if_neg hav]
        exact ih

theorem dictGet_dictInsert {κ α : Type} [DecidableEq κ]
    (idx : List (κ × α)) (k : κ) (x : α) (v : κ) :
    dictGet (dictInsert idx k x) v = if v = k then some x else dictGet idx v := by
  unfold dictInsert
  by_cases hc : (idx.map Prod.fst).contains k = true
  · rw [if_pos hc]
    by_cases hvk : v = k
    · subst hvk
      rw [if_pos rfl]
      exact dictGet_map_overwrite idx v x hc
    · rw [if_neg hvk]
      exact dictGet_map_other idx k x v hvk
  · rw [if_neg hc]
    by_cases hvk : v = k
    · subst hvk
      rw [if_pos rfl]
      unfold dictGet
      rw [List.find?_append, find?_eq_none_of_not_contains idx v hc]
      simp [find?_cons_key]
    · rw [if_neg hvk]
      unfold dictGet
      rw [List.find?_append]
      have : ([(k, x)].find? (·.1 = v)) = none := by
        rw [find?_cons_key]
        rw [if_neg (fun h => hvk h.symm)]
        rfl
      rw [this, Option.or_none]

theorem dictGet_isSome_mem_keys {κ α : Type} [DecidableEq κ]
    (idx : List (κ × α)) (v : κ) (x : α) (h : dictGet idx v = some x) :
    v ∈ idx.map Prod.fst := by
  unfold dictGet at h
  rcases hf : idx.find? (·.1 = v) with _ | kv
  · rw [hf] at h; cases h
  · have hmem := List.mem_of_find?_eq_some hf
    have hkey := List.find?_some hf
    simp only [decide_eq_true_eq] at hkey
    exact hkey ▸ List.mem_map.mpr ⟨kv, hmem, rfl⟩

theorem dictGet_foldl_indexV2 (files : Filesystem) (acc : List (Value × LocalNote))
    (v : Value) :
    dictGet (files.foldl indexFileV2 acc) v =
      match files.reverse.find? (fun f => gidOf f == some v) with
      | some f => some (localNoteOf v f)
      | none => dictGet acc v := by
  induction files generalizing acc with
  | nil => rfl
  | cons f fs ih =>
    rw [List.foldl_cons, ih, List.reverse_cons, List.find?_append]
    rcases hfind : fs.reverse.find? (fun g => gidOf g == some v) with _ | g
    · rw [Option.none_or]
      rcases hg : gidOf f with _ | gid
      · have hp : (fun g => gidOf g == some v) f = false := by
          simp [hg]
        rw [List.find?_cons_of_neg _ (by simp [hp])]
        simp [indexFileV2, hg]
      · by_cases hgv : gid = v
        · subst hgv
          rw [List.find?_cons_of_pos _ (by simp [hg])]
          simp only [indexFileV2, hg]
          rw [dictGet_dictInsert]
          simp
        · rw [List.find?_cons_of_neg _ (by simp [hg, hgv])]
          simp only [indexFileV2, hg]
          rw [dictGet_dictInsert, if_neg (fun h => hgv ((h : v = gid)).symm)]
          rfl
    · rfl

/-- No two distinct files advertise the same remote id. -/
def UniqueGids (fs : Filesystem) : Prop :=
  ∀ f g : File, f ∈ fs → g ∈ fs → ∀ v : Value,
    gidOf f = some v → gidOf g = some v → f = g

/-- File `f` is the unique file of `fs` advertising id `v`. -/
def GoodFor (fs : Filesystem) (v : Value) (f : File) : Prop :=
  f ∈ fs ∧ gidOf f = some v ∧ ∀ g ∈ fs, gidOf g = some v → g = f

/-- No file of `fs` advertises id `v`. -/
def NoGid (fs : Filesystem) (v : Value) : Prop := ∀ f ∈ fs, gidOf f ≠ some v

theorem find?_unique_gid (m : Filesystem) (f : File) (v : Value)
    (huni : ∀ g ∈ m, gidOf g = some v → g = f) (hf : f ∈ m) (hgid : gidOf f = some v) :
    m.find? (fun g => gidOf g == some v) = some f := by
  induction m with
  | nil => cases hf
  | cons g gs ih =>
    rcases hgg : gidOf g == some v with _ | _
    · rw [List.find?_cons_of_neg _ (by simp [hgg])]
      have hgf : g ≠ f := by
        intro hc
        rw [hc, hgid] at hgg
        simp at hgg
      rcases List.mem_cons.mp hf with rfl | hf'
      · exact absurd rfl hgf
      · exact ih (fun x hx hxv => huni x (List.mem_cons_of_mem g hx) hxv) hf'
    · rw [List.find?_cons_of_pos _ (by simp [hgg])]
      have : g = f := huni g (List.mem_cons_self g gs) (by simpa using hgg)
      rw [this]

theorem dictGet_indexV2_good (files : Filesystem) (v : Value) (f : File)
    (hgood : GoodFor files v f) :
    dictGet (index_existing_files_v2 files) v = some (localNoteOf v f) := by
  obtain ⟨hmem, hgid, huni⟩ := hgood
  unfold index_existing_files_v2
  rw [dictGet_foldl_indexV2]
  rw [find?_unique_gid files.reverse f v
    (fun g hg hgv => huni g (List.mem_reverse.mp hg) hgv) (List.mem_reverse.mpr hmem) hgid]

theorem dictGet_indexV2_none (files : Filesystem) (v : Value)
    (hno : NoGid files v) :
    dictGet (index_existing_files_v2 files) v = none := by
  unfold index_existing_files_v2
  rw [dictGet_foldl_indexV2]
  have : files.reverse.find? (fun f => gidOf f == some v) = none := by
    rw [List.find?_eq_none]
    intro g hg
    simp only [beq_iff_eq]
    exact fun hc => (hno g (List.mem_reverse.mp hg) hc).elim
  rw [this]
  rfl

theorem dictGet_indexV2_some (files : Filesystem) (v : Value) (ln : LocalNote)
    (h : dictGet (index_existing_files_v2 files) v = some ln) :
    ∃ f ∈ files, gidOf f = some v ∧ ln = localNoteOf v f := by
  unfold index_existing_files_v2 at h
  rw [dictGet_foldl_indexV2] at h
  rcases hfind : files.reverse.find? (fun f => gidOf f == some v) with _ | f
  · rw [hfind] at h
    simp [dictGet] at h
  · rw [hfind] at h
    have hmem := List.mem_reverse.mp (List.mem_of_find?_eq_some hfind)
    have hgid := List.find?_some hfind
    simp only [beq_iff_eq] at hgid
    exact ⟨f, hmem, hgid, by injection h with h2; exact h2.symm⟩

theorem keys_dictInsert {κ α : Type} [DecidableEq κ]
    (idx : List (κ × α)) (k : κ) (x : α) (v : κ)
    (h : v ∈ (dictInsert idx k x).map Prod.fst) : v = k ∨ v ∈ idx.map Prod.fst := by
  unfold dictInsert at h
  by_cases hc : (idx.map Prod.fst).contains k = true
  · rw [if_pos hc] at h
    rcases List.mem_map.mp h with ⟨kv, hkv, hfst⟩
    rcases List.mem_map.mp hkv with ⟨kv0, hkv0, hmap⟩
    by_cases h0 : kv0.1 = k
    · rw [if_pos h0] at hmap
      left
      rw [← hfst, ← hmap]
    · rw [if_neg h0] at hmap
      right
      rw [← hfst, ← hmap]
      exact List.mem_map.mpr ⟨kv0, hkv0, rfl⟩
  · rw [if_neg hc, List.map_append, List.mem_append] at h
    rcases h with h | h
    · right; exact h
    · left; simpa using h

theorem keys_indexV2 (files : Filesystem) (v : Value)
    (h : v ∈ (index_existing_files_v2 files).map Prod.fst) :
    ∃ f ∈ files, gidOf f = some v := by
  suffices key : ∀ (fsx : Filesystem) (acc : List (Value × LocalNote)),
      v ∈ (fsx.foldl indexFileV2 acc).map Prod.fst →
      (∃ f ∈ fsx, gidOf f = some v) ∨ v ∈ acc.map Prod.fst by
    rcases key files [] h with hk | hk
    · exact hk
    · simp at hk
  intro fsx
  induction fsx with
  | nil =>
    intro acc h
    right; exact h
  | cons f fs ih =>
    intro acc h
    rw [List.foldl_cons] at h
    rcases ih (indexFileV2 acc f) h with hk | hk
    · left
      rcases hk with ⟨g, hg, hgv⟩
      exact ⟨g, List.mem_cons_of_mem f hg, hgv⟩
    · unfold indexFileV2 at hk
      rcases hg : gidOf f with _ | gid
      · rw [hg] at hk
        right; exact hk
      · rw [hg] at hk
        rcases keys_dictInsert acc gid (localNoteOf gid f) v hk with rfl | hk'
        · left
          exact ⟨f, List.mem_cons_self f fs, hg⟩
        · right; exact hk'

/-! ### Facts about written files -/

theorem Value_str_injective : Function.Injective Value.str := by
  intro a b h
  injection h with h
  injection h

theorem alookup_updated (note : Note) :
    alookup "updated" (frontmatterTimestamps note) =
      some (.int note.timestamps.updated.timestamp) := by
  rcases htr : note.timestamps.trashed with _ | t <;>
    rcases hde : note.timestamps.deleted with _ | d
  · simp [frontmatterTimestamps, build_frontmatter, alookup, htr, hde]
  · by_cases hy : d.year > 1970 <;>
      simp [frontmatterTimestamps, build_frontmatter, alookup, htr, hde, hy]
  · by_cases hy : t.year > 1970 <;>
      simp [frontmatterTimestamps, build_frontmatter, alookup, htr, hde, hy]
  · by_cases hy : t.year > 1970 <;> by_cases hy2 : d.year > 1970 <;>
      simp [frontmatterTimestamps, build_frontmatter, alookup, htr, hde, hy, hy2]

theorem gidOf_write (p : Path) (note : Note) (hmd : isMd p = true) (hid : note.id ≠ "") :
    gidOf ⟨p, .ok (build_frontmatter note "").metadata⟩ = some (.str note.id) := by
  unfold gidOf
  rw [hmd]
  have h1 : alookup "google_keep_id" (build_frontmatter note "").metadata =
      some (.str note.id) := rfl
  simp only [if_true, h1]
  have h2 : (Value.str note.id).truthy = true := by
    simp [Value.str, Value.truthy, hid]
  rw [h2]
  simp

theorem tsOf_write (p : Path) (note : Note) :
    tsOf ⟨p, .ok (build_frontmatter note "").metadata⟩ =
      some note.timestamps.updated := by
  unfold tsOf
  simp only [alookup_timestamps note "", alookup_updated note]
  rfl

theorem isMd_of_gid (f : File) (v : Value) (h : gidOf f = some v) :
    isMd f.path = true := by
  unfold gidOf at h
  by_cases hmd : isMd f.path
  · exact hmd
  · rw [if_neg hmd] at h
    cases h

theorem isMd_dedupeCandidate (env : NameEnv) (notepath : Path) (note : Note)
    (fmt : String) (j : Nat) :
    isMd (dedupeCandidate env notepath note fmt j) = true := by
  by_cases hj : j = 0 <;>
    simp [dedupeCandidate, candidatePath, hj, isMd, List.getLast?_concat,
      String.data_append, List.isSuffixOf]

theorem dedupeLoop_shape (occ : List Path) (cand : Nat → Path) :
    ∀ (fuel i : Nat), ∃ j, dedupeLoop occ cand fuel i = cand j := by
  intro fuel
  induction fuel with
  | zero => intro i; exact ⟨i, rfl⟩
  | succ fuel ih =>
    intro i
    by_cases h : cand i ∈ occ
    · obtain ⟨j, hj⟩ := ih (i + 1)
      exact ⟨j, by rw [dedupeLoop, if_pos h]; exact hj⟩
    · exact ⟨i, by rw [dedupeLoop, if_neg h]⟩

theorem build_isMd_of_new (env : NameEnv) (fs : Filesystem) (notepath : Path)
    (note : Note) (fmt : String) (idx : List (Value × LocalNote))
    (hnew : dictGet idx (Value.str note.id) = none) :
    isMd (build_note_unique_path env fs notepath note fmt idx) = true := by
  have hbuild : build_note_unique_path env fs notepath note fmt idx =
      dedupeLoop (fs.map (fun f => f.path)) (dedupeCandidate env notepath note fmt)
        ((fs.map (fun f => f.path)).length + 1) 0 := by
    unfold build_note_unique_path
    rw [hnew]
  obtain ⟨j, hj⟩ := dedupeLoop_shape (fs.map (fun f => f.path))
    (dedupeCandidate env notepath note fmt) ((fs.map (fun f => f.path)).length + 1) 0
  rw [hbuild, hj]
  exact isMd_dedupeCandidate env notepath note fmt j

theorem build_indexed_cases (env : NameEnv) (fs : Filesystem) (notepath : Path)
    (note : Note) (fmt : String) (idx : List (Value × LocalNote)) (ln : LocalNote)
    (hln : dictGet idx (Value.str note.id) = some ln) :
    build_note_unique_path env fs notepath note fmt idx =
      ln.path.getD (candidatePath env notepath note fmt) ∨
    (pathExists fs (build_note_unique_path env fs notepath note fmt idx) = false ∧
      isMd (build_note_unique_path env fs notepath note fmt idx) = true) := by
  unfold build_note_unique_path
  rw [hln]
  rcases hbeq : ln.path == some (candidatePath env notepath note fmt) with _ | _
  · rcases hocc : pathExists fs (candidatePath env notepath note fmt) with _ | _
    · right
      simp only [hbeq, hocc, Bool.false_eq_true, if_false]
      obtain ⟨j, hj0, hjeq, hjfree, hjmin⟩ :=
        dedupeLoop_spec (fs.map (fun f => f.path)) (dedupeCandidate env notepath note fmt)
          ((fs.map (fun f => f.path)).length + 1) 0
          (exists_free_candidate (fs.map (fun f => f.path))
            (dedupeCandidate env notepath note fmt)
            (dedupeCandidate_injective env notepath note fmt) 0)
      rw [hjeq]
      exact ⟨pathExists_eq_false _ _ hjfree, isMd_dedupeCandidate env notepath note fmt j⟩
    · left
      simp only [hbeq, hocc, if_true, Bool.false_eq_true, if_false]
  · left
    have := beq_iff_eq.mp hbeq
    simp [this]

/-! ### Elementary filesystem operation facts -/

theorem pathExists_of_mem (fs : Filesystem) (f : File) (hf : f ∈ fs) :
    pathExists fs f.path = true := by
  rw [pathExists_iff]
  exact List.mem_map.mpr ⟨f, hf, rfl⟩

theorem not_mem_paths_of_pathExists_false (fs : Filesystem) (p : Path)
    (h : pathExists fs p = false) : p ∉ fs.map (fun f => f.path) := by
  intro hc
  rw [(pathExists_iff fs p).mpr hc] at h
  cases h

theorem setFile_append (fs : Filesystem) (p : Path) (r : ReadResult)
    (h : pathExists fs p = false) : setFile fs p r = fs ++ [⟨p, r⟩] := by
  unfold setFile
  rw [h]
  rfl

theorem setFile_replace (fs : Filesystem) (p : Path) (r : ReadResult)
    (h : pathExists fs p = true) :
    setFile fs p r = fs.map (fun g => if g.path = p then ⟨p, r⟩ else g) := by
  unfold setFile
  rw [h]
  rfl

theorem write_note_header (fs : Filesystem) (target : Path) (note : Note) :
    write_note fs target true note =
      setFile fs target (.ok (build_frontmatter note "").metadata) := rfl

/-! ### Effect of single-file mutations on id classes -/

theorem nodup_map_subst (l : List Path) (b a : Path) (hnd : l.Nodup) (ha : a ∉ l) :
    (l.map fun p => if p = b then a else p).Nodup := by
  induction l with
  | nil => exact List.nodup_nil
  | cons h t ih =>
    rcases List.nodup_cons.mp hnd with ⟨hht, hndt⟩
    have hat : a ∉ t := fun hc => ha (List.mem_cons_of_mem h hc)
    have hah : a ≠ h := fun hc => ha (hc ▸ List.mem_cons_self h t)
    by_cases hb : h = b
    · rw [List.map_cons, if_pos hb]
      have htid : t.map (fun p => if p = b then a else p) = t := by
        conv_rhs => rw [← List.map_id t]
        apply List.map_congr_left
        intro x hx
        have hxb : x ≠ b := fun hc => hht (by rw [hb, ← hc]; exact hx)
        rw [if_neg hxb]
        rfl
      rw [htid]
      exact List.nodup_cons.mpr ⟨hat, hndt⟩
    · rw [List.map_cons, if_neg hb]
      refine List.nodup_cons.mpr ⟨?_, ih hndt hat⟩
      intro hc
      rcases List.mem_map.mp hc with ⟨x, hx, hxe⟩
      by_cases hxb : x = b
      · rw [if_pos hxb] at hxe
        exact hah hxe
      · rw [if_neg hxb] at hxe
        exact hht (hxe ▸ hx)

theorem mem_swapFile (fs : Filesystem) (f fnew : File)
    (hnd : (fs.map (fun g => g.path)).Nodup) (hf : f ∈ fs) (x : File) :
    (x ∈ fs.map (fun g => if g.path = f.path then fnew else g)) ↔
      (x = fnew ∨ (x ∈ fs ∧ x ≠ f)) := by
  have hinj := List.inj_on_of_nodup_map hnd
  constructor
  · intro hx
    rcases List.mem_map.mp hx with ⟨g, hg, hge⟩
    by_cases hgp : g.path = f.path
    · rw [if_pos hgp] at hge
      left; exact hge.symm
    · rw [if_neg hgp] at hge
      right
      refine ⟨hge ▸ hg, ?_⟩
      intro hc
      exact hgp (by rw [← hge] at hc; rw [hc])
  · rintro (rfl | ⟨hx, hxf⟩)
    · exact List.mem_map.mpr ⟨f, hf, by rw [if_pos rfl]⟩
    · refine List.mem_map.mpr ⟨x, hx, ?_⟩
      rw [if_neg (fun hc => hxf (hinj hx hf hc))]

theorem swapFile_effects (fs : Filesystem) (f fnew : File) (vn : Value)
    (hGood : GoodFor fs vn f)
    (hnd : (fs.map (fun g => g.path)).Nodup)
    (huni : UniqueGids fs)
    (hgidnew : gidOf fnew = some vn)
    (hfresh : fnew.path = f.path ∨ pathExists fs fnew.path = false) :
    ((fs.map (fun g => if g.path = f.path then fnew else g)).map (fun g => g.path)).Nodup ∧
    UniqueGids (fs.map (fun g => if g.path = f.path then fnew else g)) ∧
    GoodFor (fs.map (fun g => if g.path = f.path then fnew else g)) vn fnew ∧
    (∀ x : File, gidOf x ≠ some vn →
      (x ∈ fs ↔ x ∈ fs.map (fun g => if g.path = f.path then fnew else g))) ∧
    (∀ x ∈ fs.map (fun g => if g.path = f.path then fnew else g),
      x ∈ fs ∨ gidOf x = some vn) := by
  obtain ⟨hfmem, hfgid, hfuni⟩ := hGood
  have hmem := mem_swapFile fs f fnew hnd hfmem
  refine ⟨?_, ?_, ?_, ?_, ?_⟩
  · have hpt : (fs.map (fun g => if g.path = f.path then fnew else g)).map
        (fun g => g.path) =
        (fs.map (fun g => g.path)).map (fun p => if p = f.path then fnew.path else p) := by
      rw [List.map_map, List.map_map]
      apply List.map_congr_left
      intro g _
      by_cases hgp : g.path = f.path
      · simp [Function.comp, hgp]
      · simp [Function.comp, hgp]
    rw [hpt]
    rcases hfresh with hsame | hfree
    · have : (fs.map (fun g => g.path)).map (fun p => if p = f.path then fnew.path else p) =
          fs.map (fun g => g.path) := by
        conv_rhs => rw [← List.map_id (fs.map (fun g => g.path))]
        apply List.map_congr_left
        intro p _
        by_cases hp : p = f.path
        · rw [if_pos hp, hsame, hp]; rfl
        · rw [if_neg hp]; rfl
      rw [this]
      exact hnd
    · exact nodup_map_subst _ _ _ hnd (not_mem_paths_of_pathExists_false fs fnew.path hfree)
  · intro x y hx hy v hxv hyv
    rcases (hmem x).mp hx with hx1 | ⟨hxfs, hxf⟩
    · rcases (hmem y).mp hy with hy1 | ⟨hyfs, hyf⟩
      · rw [hx1, hy1]
      · subst hx1
        rw [hgidnew] at hxv
        injection hxv with hv
        subst hv
        exact absurd (hfuni y hyfs hyv) hyf
    · rcases (hmem y).mp hy with hy1 | ⟨hyfs, hyf⟩
      · subst hy1
        rw [hgidnew] at hyv
        injection hyv with hv
        subst hv
        exact absurd (hfuni x hxfs hxv) hxf
      · exact huni x y hxfs hyfs v hxv hyv
  · refine ⟨(hmem fnew).mpr (Or.inl rfl), hgidnew, ?_⟩
    intro g hg hggid
    rcases (hmem g).mp hg with rfl | ⟨hgfs, hgf⟩
    · rfl
    · exact absurd (hfuni g hgfs hggid) hgf
  · intro x hxgid
    constructor
    · intro hx
      refine (hmem x).mpr (Or.inr ⟨hx, ?_⟩)
      intro hc
      exact hxgid (hc ▸ hfgid)
    · intro hx
      rcases (hmem x).mp hx with rfl | ⟨hxfs, _⟩
      · exact absurd hgidnew hxgid
      · exact hxfs
  · intro x hx
    rcases (hmem x).mp hx with rfl | ⟨hxfs, _⟩
    · right; exact hgidnew
    · left; exact hxfs

theorem appendFile_effects (fs : Filesystem) (fnew : File) (vn : Value)
    (hNo : NoGid fs vn)
    (hnd : (fs.map (fun g => g.path)).Nodup)
    (huni : UniqueGids fs)
    (hgidnew : gidOf fnew = some vn)
    (hfresh : pathExists fs fnew.path = false) :
    (((fs ++ [fnew]).map (fun g => g.path)).Nodup) ∧
    UniqueGids (fs ++ [fnew]) ∧
    GoodFor (fs ++ [fnew]) vn fnew ∧
    (∀ x : File, gidOf x ≠ some vn → (x ∈ fs ↔ x ∈ fs ++ [fnew])) ∧
    (∀ x ∈ fs ++ [fnew], x ∈ fs ∨ gidOf x = some vn) := by
  have hmem : ∀ x : File, x ∈ fs ++ [fnew] ↔ (x ∈ fs ∨ x = fnew) := by
    intro x
    simp [List.mem_append]
  refine ⟨?_, ?_, ?_, ?_, ?_⟩
  · rw [List.map_append]
    rw [List.nodup_append]
    refine ⟨hnd, List.nodup_singleton _, ?_⟩
    intro p hp hq
    rcases List.mem_singleton.mp hq with rfl
    exact not_mem_paths_of_pathExists_false fs fnew.path hfresh hp
  · intro x y hx hy v hxv hyv
    rcases (hmem x).mp hx with hxfs | rfl <;> rcases (hmem y).mp hy with hyfs | h2
    · exact huni x y hxfs hyfs v hxv hyv
    · subst h2
      rw [hgidnew] at hyv
      injection hyv with hv
      exact absurd hxv (hv ▸ hNo x hxfs)
    · rw [hgidnew] at hxv
      injection hxv with hv
      exact absurd hyv (hv ▸ hNo y hyfs)
    · rw [h2]
  · refine ⟨(hmem fnew).mpr (Or.inr rfl), hgidnew, ?_⟩
    intro g hg hggid
    rcases (hmem g).mp hg with hgfs | rfl
    · exact absurd hggid (hNo g hgfs)
    · rfl
  · intro x hxgid
    constructor
    · intro hx
      exact (hmem x).mpr (Or.inl hx)
    · intro hx
      rcases (hmem x).mp hx with hxfs | rfl
      · exact hxfs
      · exact absurd hgidnew hxgid
  · intro x hx
    rcases (hmem x).mp hx with hxfs | rfl
    · left; exact hxfs
    · right; exact hgidnew

/-! ### Per-note step analysis -/

/-- What the fixed pre-loop index says about note `m`, reflected in tree `fs`:
either the indexed `LocalNote` points at the unique file advertising `m`'s id,
with the timestamp the indexer parsed from it, or no file advertises it. -/
def IdxMatch (idx : List (Value × LocalNote)) (fs : Filesystem) (m : Note) : Prop :=
  match dictGet idx (Value.str m.id) with
  | some ln => ∃ f, GoodFor fs (Value.str m.id) f ∧ ln.path = some f.path ∧
      ln.timestamp_updated = tsOf f
  | none => NoGid fs (Value.str m.id)

theorem tsOf_read_congr (f g : File) (h : f.read = g.read) : tsOf f = tsOf g := by
  unfold tsOf
  rw [h]

theorem gidOf_read_congr (f g : File) (hmd : isMd f.path = isMd g.path)
    (h : f.read = g.read) : gidOf f = gidOf g := by
  unfold gidOf
  rw [h, hmd]

theorem rename_phase_effects (env : NameEnv) (oracle : Path → Path → Bool)
    (idx : List (Value × LocalNote)) (cfg : Config) (fs : Filesystem) (note : Note)
    (ln : LocalNote) (f : File)
    (hln : dictGet idx (Value.str note.id) = some ln)
    (hGood : GoodFor fs (Value.str note.id) f)
    (hlnpath : ln.path = some f.path)
    (hnd : (fs.map (fun g => g.path)).Nodup)
    (huni : UniqueGids fs) :
    ∃ fmid fsmid,
      rename_phase (renameOpOf oracle) cfg.rename_local fs ln.path
        (build_note_unique_path env fs cfg.notepath note cfg.date_format idx) =
        (fmid.path, fsmid) ∧
      fmid.read = f.read ∧
      (fsmid.map (fun g => g.path)).Nodup ∧ UniqueGids fsmid ∧
      GoodFor fsmid (Value.str note.id) fmid ∧
      (∀ x : File, gidOf x ≠ some (Value.str note.id) → (x ∈ fs ↔ x ∈ fsmid)) ∧
      (∀ x ∈ fsmid, x ∈ fs ∨ gidOf x = some (Value.str note.id)) := by
  obtain ⟨hfmem, hfgid, hfuni⟩ := hGood
  have htriv : ∀ x : File, gidOf x ≠ some (Value.str note.id) → (x ∈ fs ↔ x ∈ fs) :=
    fun x _ => Iff.rfl
  have htriv2 : ∀ x ∈ fs, x ∈ fs ∨ gidOf x = some (Value.str note.id) :=
    fun x hx => Or.inl hx
  rw [hlnpath]
  have hstep : rename_phase (renameOpOf oracle) cfg.rename_local fs (some f.path)
      (build_note_unique_path env fs cfg.notepath note cfg.date_format idx) =
      (if cfg.rename_local &&
          decide (f.path ≠ build_note_unique_path env fs cfg.notepath note cfg.date_format idx)
       then try_rename_note (renameOpOf oracle) fs f.path
          (build_note_unique_path env fs cfg.notepath note cfg.date_format idx)
       else (f.path, fs)) := rfl
  by_cases hcond : (cfg.rename_local &&
      decide (f.path ≠ build_note_unique_path env fs cfg.notepath note cfg.date_format idx)) = true
  · have hne : f.path ≠ build_note_unique_path env fs cfg.notepath note cfg.date_format idx := by
      have hc2 := hcond
      simp only [Bool.and_eq_true, decide_eq_true_eq] at hc2
      exact hc2.2
    have hfree : pathExists fs
          (build_note_unique_path env fs cfg.notepath note cfg.date_format idx) = false ∧
        isMd (build_note_unique_path env fs cfg.notepath note cfg.date_format idx) = true := by
      rcases build_indexed_cases env fs cfg.notepath note cfg.date_format idx ln hln with
        hcase | hcase
      · exfalso
        apply hne
        rw [hcase, hlnpath]
        rfl
      · exact hcase
    by_cases horacle : oracle f.path
        (build_note_unique_path env fs cfg.notepath note cfg.date_format idx) = true
    · -- rename succeeds: the note file moves to the fresh target
      have hmove : movePath fs f.path
            (build_note_unique_path env fs cfg.notepath note cfg.date_format idx) =
          fs.map (fun g => if g.path = f.path then
            (⟨build_note_unique_path env fs cfg.notepath note cfg.date_format idx,
              f.read⟩ : File) else g) := by
        unfold movePath
        apply List.map_congr_left
        intro g hg
        by_cases hgp : g.path = f.path
        · rw [if_pos hgp, if_pos hgp]
          have : g = f := List.inj_on_of_nodup_map hnd hg hfmem hgp
          rw [this]
        · rw [if_neg hgp, if_neg hgp]
      have hgmoved : gidOf (⟨build_note_unique_path env fs cfg.notepath note
            cfg.date_format idx, f.read⟩ : File) = some (Value.str note.id) := by
        have hmd : isMd ((⟨build_note_unique_path env fs cfg.notepath note
            cfg.date_format idx, f.read⟩ : File).path) = isMd f.path := by
          show isMd (build_note_unique_path env fs cfg.notepath note cfg.date_format idx) =
            isMd f.path
          rw [hfree.2, isMd_of_gid f _ hfgid]
        rw [gidOf_read_congr (⟨build_note_unique_path env fs cfg.notepath note
            cfg.date_format idx, f.read⟩ : File) f hmd rfl]
        exact hfgid
      obtain ⟨h1, h2, h3, h4, h5⟩ := swapFile_effects fs f
        (⟨build_note_unique_path env fs cfg.notepath note cfg.date_format idx, f.read⟩ : File)
        (Value.str note.id) ⟨hfmem, hfgid, hfuni⟩ hnd huni hgmoved (Or.inr hfree.1)
      refine ⟨⟨build_note_unique_path env fs cfg.notepath note cfg.date_format idx, f.read⟩,
        fs.map (fun g => if g.path = f.path then
          (⟨build_note_unique_path env fs cfg.notepath note cfg.date_format idx,
            f.read⟩ : File) else g), ?_, rfl, h1, h2, h3, h4, h5⟩
      rw [hstep, if_pos hcond]
      unfold try_rename_note renameOpOf
      rw [if_pos horacle]
      simp only [hmove]
    · -- rename fails: nothing changed
      refine ⟨f, fs, ?_, rfl, hnd, huni, ⟨hfmem, hfgid, hfuni⟩, htriv, htriv2⟩
      rw [hstep, if_pos hcond]
      unfold try_rename_note renameOpOf
      rw [if_neg horacle]
  · -- no rename attempted
    refine ⟨f, fs, ?_, rfl, hnd, huni, ⟨hfmem, hfgid, hfuni⟩, htriv, htriv2⟩
    rw [hstep, if_neg hcond]

theorem process_note_effects (env : NameEnv) (oracle : Path → Path → Bool)
    (mediaCount : Note → Nat) (idx : List (Value × LocalNote)) (cfg : Config)
    (fs : Filesystem) (note : Note)
    (hheader : cfg.header = true) (hid : note.id ≠ "")
    (hnd : (fs.map (fun g => g.path)).Nodup)
    (huni : UniqueGids fs)
    (hmatch : IdxMatch idx fs note) :
    (((process_note env (renameOpOf oracle) mediaCount idx cfg fs note).2.1.map
        (fun g => g.path)).Nodup) ∧
    UniqueGids (process_note env (renameOpOf oracle) mediaCount idx cfg fs note).2.1 ∧
    (∃ f, GoodFor (process_note env (renameOpOf oracle) mediaCount idx cfg fs note).2.1
        (Value.str note.id) f ∧ tsOf f = some note.timestamps.updated) ∧
    (∀ x : File, gidOf x ≠ some (Value.str note.id) →
      (x ∈ fs ↔ x ∈ (process_note env (renameOpOf oracle) mediaCount idx cfg fs note).2.1)) ∧
    (∀ x ∈ (process_note env (renameOpOf oracle) mediaCount idx cfg fs note).2.1,
      x ∈ fs ∨ gidOf x = some (Value.str note.id)) := by
  unfold IdxMatch at hmatch
  rcases hln : dictGet idx (Value.str note.id) with _ | ln
  · -- CREATE: no indexed note
    rw [hln] at hmatch
    have hproc : process_note env (renameOpOf oracle) mediaCount idx cfg fs note =
        (.create,
         write_note fs (build_note_unique_path env fs cfg.notepath note cfg.date_format idx)
           cfg.header note,
         mediaCount note) := by
      unfold process_note
      rw [hln]
      rfl
    have hfree : pathExists fs
        (build_note_unique_path env fs cfg.notepath note cfg.date_format idx) = false :=
      build_new_fresh env fs cfg.notepath note cfg.date_format idx hln
    have hmd : isMd (build_note_unique_path env fs cfg.notepath note cfg.date_format idx) =
        true := build_isMd_of_new env fs cfg.notepath note cfg.date_format idx hln
    have hwrite : write_note fs
        (build_note_unique_path env fs cfg.notepath note cfg.date_format idx) cfg.header note =
        fs ++ [⟨build_note_unique_path env fs cfg.notepath note cfg.date_format idx,
          .ok (build_frontmatter note "").metadata⟩] := by
      rw [hheader, write_note_header, setFile_append fs _ _ hfree]
    obtain ⟨h1, h2, h3, h4, h5⟩ := appendFile_effects fs
      (⟨build_note_unique_path env fs cfg.notepath note cfg.date_format idx,
        .ok (build_frontmatter note "").metadata⟩ : File)
      (Value.str note.id) hmatch hnd huni
      (gidOf_write _ note hmd hid) hfree
    rw [hproc]
    refine ⟨?_, ?_, ?_, ?_, ?_⟩
    · show ((write_note fs _ cfg.header note).map (fun g => g.path)).Nodup
      rw [hwrite]; exact h1
    · show UniqueGids (write_note fs _ cfg.header note)
      rw [hwrite]; exact h2
    · refine ⟨⟨build_note_unique_path env fs cfg.notepath note cfg.date_format idx,
        .ok (build_frontmatter note "").metadata⟩, ?_, tsOf_write _ note⟩
      show GoodFor (write_note fs _ cfg.header note) _ _
      rw [hwrite]; exact h3
    · intro x hx
      show x ∈ fs ↔ x ∈ write_note fs _ cfg.header note
      rw [hwrite]; exact h4 x hx
    · intro x hx
      rw [hwrite] at hx
      exact h5 x hx
  · -- SKIP or UPDATE: an indexed note exists
    rw [hln] at hmatch
    obtain ⟨f, hGood, hlnpath, hlnts⟩ := hmatch
    obtain ⟨fmid, fsmid, hmidstep, hmidread, hmidnd, hmiduni, hmidgood, hmid4, hmid5⟩ :=
      rename_phase_effects env oracle idx cfg fs note ln f hln hGood hlnpath hnd huni
    have hproc : process_note env (renameOpOf oracle) mediaCount idx cfg fs note =
        (if ln.timestamp_updated == some note.timestamps.updated
         then (.skip, fsmid, 0)
         else (.update, write_note fsmid fmid.path cfg.header note, mediaCount note)) := by
      unfold process_note
      simp only [hln, Option.getD_some]
      rw [hmidstep]
    rcases hts : ln.timestamp_updated == some note.timestamps.updated with _ | _
    · -- UPDATE
      rw [hts] at hproc
      simp only [Bool.false_eq_true, if_false] at hproc
      have hmdmid : isMd fmid.path = true := isMd_of_gid fmid _ hmidgood.2.1
      have hex : pathExists fsmid fmid.path = true := pathExists_of_mem fsmid fmid hmidgood.1
      have hwrite : write_note fsmid fmid.path cfg.header note =
          fsmid.map (fun g => if g.path = fmid.path then
            (⟨fmid.path, .ok (build_frontmatter note "").metadata⟩ : File) else g) := by
        rw [hheader, write_note_header, setFile_replace fsmid _ _ hex]
      obtain ⟨h1, h2, h3, h4, h5⟩ := swapFile_effects fsmid fmid
        (⟨fmid.path, .ok (build_frontmatter note "").metadata⟩ : File)
        (Value.str note.id) hmidgood hmidnd hmiduni
        (gidOf_write _ note hmdmid hid) (Or.inl rfl)
      rw [hproc]
      refine ⟨?_, ?_, ?_, ?_, ?_⟩
      · show ((write_note fsmid fmid.path cfg.header note).map (fun g => g.path)).Nodup
        rw [hwrite]; exact h1
      · show UniqueGids (write_note fsmid fmid.path cfg.header note)
        rw [hwrite]; exact h2
      · refine ⟨⟨fmid.path, .ok (build_frontmatter note "").metadata⟩, ?_, tsOf_write _ note⟩
        show GoodFor (write_note fsmid fmid.path cfg.header note) _ _
        rw [hwrite]; exact h3
      · intro x hx
        show x ∈ fs ↔ x ∈ write_note fsmid fmid.path cfg.header note
        rw [hwrite]
        exact (hmid4 x hx).trans (h4 x hx)
      · intro x hx
        rw [hwrite] at hx
        rcases h5 x hx with hxmid | hxgid
        · exact hmid5 x hxmid
        · right; exact hxgid
    · -- SKIP
      rw [hts] at hproc
      simp only [if_true] at hproc
      rw [hproc]
      refine ⟨hmidnd, hmiduni, ?_, hmid4, hmid5⟩
      refine ⟨fmid, hmidgood, ?_⟩
      rw [tsOf_read_congr fmid f hmidread, ← hlnts]
      exact beq_iff_eq.mp hts

theorem goodFor_transfer (fs fs2 : Filesystem) (vn v : Value) (f0 : File)
    (hGood : GoodFor fs v f0) (hvn : v ≠ vn)
    (h4 : ∀ x : File, gidOf x ≠ some vn → (x ∈ fs ↔ x ∈ fs2))
    (h5 : ∀ x ∈ fs2, x ∈ fs ∨ gidOf x = some vn) :
    GoodFor fs2 v f0 := by
  obtain ⟨hmem, hgid, huni⟩ := hGood
  have hne : gidOf f0 ≠ some vn := by
    rw [hgid]
    intro hc
    injection hc with hc
    exact hvn hc
  refine ⟨(h4 f0 hne).mp hmem, hgid, ?_⟩
  intro g hg hggid
  rcases h5 g hg with hgfs | hgvn
  · exact huni g hgfs hggid
  · rw [hggid] at hgvn
    injection hgvn with hc
    exact absurd hc hvn

theorem noGid_transfer (fs fs2 : Filesystem) (vn v : Value) (hNo : NoGid fs v)
    (hvn : v ≠ vn) (h5 : ∀ x ∈ fs2, x ∈ fs ∨ gidOf x = some vn) : NoGid fs2 v := by
  intro g hg hc
  rcases h5 g hg with hgfs | hgvn
  · exact hNo g hgfs hc
  · rw [hc] at hgvn
    injection hgvn with h2
    exact hvn h2

theorem mainStep_fst (env : NameEnv) (mediaCount : Note → Nat)
    (oracle : Path → Path → Bool) (idx : List (Value × LocalNote)) (cfg : Config)
    (acc : Filesystem × RunCounts) (note : Note) :
    (mainStep env mediaCount oracle idx cfg acc note).1 =
      (process_note env (renameOpOf oracle) mediaCount idx cfg acc.1 note).2.1 := by
  unfold mainStep
  rcases h : process_note env (renameOpOf oracle) mediaCount idx cfg acc.1 note with ⟨o, fs2, dl⟩
  rcases o <;> rfl

theorem mainStep_deleted (env : NameEnv) (mediaCount : Note → Nat)
    (oracle : Path → Path → Bool) (idx : List (Value × LocalNote)) (cfg : Config)
    (acc : Filesystem × RunCounts) (note : Note) :
    (mainStep env mediaCount oracle idx cfg acc note).2.deleted = acc.2.deleted := by
  unfold mainStep
  rcases h : process_note env (renameOpOf oracle) mediaCount idx cfg acc.1 note with ⟨o, fs2, dl⟩
  rcases o <;> rfl

theorem foldl_mainStep_deleted (env : NameEnv) (mediaCount : Note → Nat)
    (oracle : Path → Path → Bool) (idx : List (Value × LocalNote)) (cfg : Config)
    (todo : List Note) :
    ∀ acc : Filesystem × RunCounts,
      ((todo.foldl (mainStep env mediaCount oracle idx cfg) acc).2.deleted = acc.2.deleted) := by
  induction todo with
  | nil => intro acc; rfl
  | cons n rest ih =>
    intro acc
    rw [List.foldl_cons, ih, mainStep_deleted]

theorem run1_loop (env : NameEnv) (oracle : Path → Path → Bool) (mediaCount : Note → Nat)
    (idx : List (Value × LocalNote)) (cfg : Config) (todo : List Note) :
    ∀ (fs : Filesystem) (counts : RunCounts),
    cfg.header = true →
    (todo.map Note.id).Nodup →
    (∀ n ∈ todo, n.id ≠ "") →
    (fs.map (fun g => g.path)).Nodup →
    UniqueGids fs →
    (∀ m ∈ todo, IdxMatch idx fs m) →
    (((todo.foldl (mainStep env mediaCount oracle idx cfg) (fs, counts)).1.map
        (fun g => g.path)).Nodup) ∧
    UniqueGids (todo.foldl (mainStep env mediaCount oracle idx cfg) (fs, counts)).1 ∧
    (∀ n ∈ todo, ∃ f,
      GoodFor (todo.foldl (mainStep env mediaCount oracle idx cfg) (fs, counts)).1
        (Value.str n.id) f ∧ tsOf f = some n.timestamps.updated) ∧
    (∀ (v : Value) (f0 : File), GoodFor fs v f0 →
      v ∉ todo.map (fun n => Value.str n.id) →
      ∃ f1, GoodFor (todo.foldl (mainStep env mediaCount oracle idx cfg) (fs, counts)).1 v f1 ∧
        tsOf f1 = tsOf f0) ∧
    (∀ x ∈ (todo.foldl (mainStep env mediaCount oracle idx cfg) (fs, counts)).1,
      x ∈ fs ∨ ∃ n ∈ todo, gidOf x = some (Value.str n.id)) := by
  induction todo with
  | nil =>
    intro fs counts _ _ _ hnd huni _
    refine ⟨hnd, huni, ?_, ?_, ?_⟩
    · intro n hn; cases hn
    · intro v f0 hGood _
      exact ⟨f0, hGood, rfl⟩
    · intro x hx
      exact Or.inl hx
  | cons n rest ih =>
    intro fs counts hheader hnodup hids hnd huni hmatch
    obtain ⟨h1, h2, ⟨fn, hfngood, hfnts⟩, h4, h5⟩ :=
      process_note_effects env oracle mediaCount idx cfg fs n hheader
        (hids n (List.mem_cons_self n rest)) hnd huni (hmatch n (List.mem_cons_self n rest))
    rw [List.foldl_cons]
    rcases hacc : mainStep env mediaCount oracle idx cfg (fs, counts) n with ⟨fs2, counts2⟩
    have hfs2 : fs2 = (process_note env (renameOpOf oracle) mediaCount idx cfg fs n).2.1 := by
      have hh := mainStep_fst env mediaCount oracle idx cfg (fs, counts) n
      rw [hacc] at hh
      exact hh
    subst hfs2
    have hidne : ∀ m ∈ rest, Value.str m.id ≠ Value.str n.id := by
      intro m hm hc
      have hmn : m.id = n.id := Value_str_injective hc
      rcases List.nodup_cons.mp hnodup with ⟨hnid, _⟩
      exact hnid (hmn ▸ List.mem_map.mpr ⟨m, hm, rfl⟩)
    have hrestmatch : ∀ m ∈ rest,
        IdxMatch idx (process_note env (renameOpOf oracle) mediaCount idx cfg fs n).2.1 m := by
      intro m hm
      have horig := hmatch m (List.mem_cons_of_mem n hm)
      unfold IdxMatch at horig ⊢
      rcases hlnm : dictGet idx (Value.str m.id) with _ | lnm
      · rw [hlnm] at horig
        exact noGid_transfer fs _ (Value.str n.id) (Value.str m.id) horig (hidne m hm) h5
      · rw [hlnm] at horig
        obtain ⟨fm, hfmgood, hfmpath, hfmts⟩ := horig
        exact ⟨fm, goodFor_transfer fs _ (Value.str n.id) (Value.str m.id) fm hfmgood
          (hidne m hm) h4 h5, hfmpath, hfmts⟩
    obtain ⟨k1, k2, k3, k4, k5⟩ := ih
      (process_note env (renameOpOf oracle) mediaCount idx cfg fs n).2.1 counts2 hheader
      (List.nodup_cons.mp hnodup).2
      (fun m hm => hids m (List.mem_cons_of_mem n hm))
      h1 h2 hrestmatch
    refine ⟨k1, k2, ?_, ?_, ?_⟩
    · intro k hk
      rcases List.mem_cons.mp hk with rfl | hk2
      · obtain ⟨f1, hf1good, hf1ts⟩ := k4 (Value.str k.id) fn hfngood (by
          intro hc
          rcases List.mem_map.mp hc with ⟨m, hm, hme⟩
          exact hidne m hm hme)
        exact ⟨f1, hf1good, by rw [hf1ts]; exact hfnts⟩
      · exact k3 k hk2
    · intro v f0 hGood hnotin
      have hvn : v ≠ Value.str n.id := by
        intro hc
        exact hnotin (hc ▸ List.mem_map.mpr ⟨n, List.mem_cons_self n rest, rfl⟩)
      have hGood2 := goodFor_transfer fs _ (Value.str n.id) v f0 hGood hvn h4 h5
      obtain ⟨f1, hf1good, hf1ts⟩ := k4 v f0 hGood2 (by
        intro hc
        rcases List.mem_map.mp hc with ⟨m, hm, hme⟩
        exact hnotin (hme ▸ List.mem_map.mpr ⟨m, List.mem_cons_of_mem n hm, rfl⟩))
      exact ⟨f1, hf1good, hf1ts⟩
    · intro x hx
      rcases k5 x hx with hx2 | ⟨m, hm, hgid⟩
      · rcases h5 x hx2 with hxfs | hxgid
        · exact Or.inl hxfs
        · exact Or.inr ⟨n, List.mem_cons_self n rest, hxgid⟩
      · exact Or.inr ⟨m, List.mem_cons_of_mem n hm, hgid⟩

/-! ### The orphan phase establishes the loop preconditions -/

theorem deleteOrphans_sublist (local_index : List (Value × LocalNote)) (ids : List Value) :
    ∀ acc : Filesystem × Nat, (deleteOrphans local_index ids acc).1.Sublist acc.1 := by
  induction ids with
  | nil => intro acc; exact List.Sublist.refl _
  | cons v vs ih =>
    intro acc
    rcases hv : dictGet local_index v with _ | ln
    · have hstep : deleteOrphans local_index (v :: vs) acc =
          deleteOrphans local_index vs acc := by
        rcases acc with ⟨fs, n⟩
        simp only [deleteOrphans, List.foldl_cons, hv]
      rw [hstep]
      exact ih acc
    · rcases hp : ln.path with _ | p
      · have hstep : deleteOrphans local_index (v :: vs) acc =
            deleteOrphans local_index vs acc := by
          rcases acc with ⟨fs, n⟩
          simp only [deleteOrphans, List.foldl_cons, hv, hp]
        rw [hstep]
        exact ih acc
      · have hstep : deleteOrphans local_index (v :: vs) acc =
            deleteOrphans local_index vs (removeFile acc.1 p, acc.2 + 1) := by
          rcases acc with ⟨fs, n⟩
          simp only [deleteOrphans, List.foldl_cons, hv, hp]
        rw [hstep]
        exact (ih (removeFile acc.1 p, acc.2 + 1)).trans (List.filter_sublist acc.1)

theorem delete_sublist (fs : Filesystem) (local_index : List (Value × LocalNote))
    (keep_ids : List String) (d : Bool) :
    (delete_local_only_files fs local_index keep_ids d).1.Sublist fs := by
  unfold delete_local_only_files
  by_cases hids : (orphanIds local_index keep_ids).isEmpty = true
  · rw [if_pos hids]
  · rw [if_neg hids]
    rcases d with _ | _
    · exact List.Sublist.refl fs
    · rw [if_pos rfl]
      exact deleteOrphans_sublist local_index (orphanIds local_index keep_ids) (fs, 0)

theorem keepStr_eq (remote : List Note) :
    (remote.map Note.id).map Value.str = remote.map (fun n => Value.str n.id) := by
  rw [List.map_map]
  rfl

theorem delete_phase_effects (fs0 : Filesystem) (remote : List Note) (d : Bool)
    (hnd : (fs0.map (fun g => g.path)).Nodup)
    (huni : UniqueGids fs0) :
    (((delete_local_only_files fs0 (index_existing_files_v2 fs0) (remote.map Note.id) d).1.map
        (fun g => g.path)).Nodup) ∧
    UniqueGids (delete_local_only_files fs0 (index_existing_files_v2 fs0)
        (remote.map Note.id) d).1 ∧
    (∀ m ∈ remote, IdxMatch (index_existing_files_v2 fs0)
        (delete_local_only_files fs0 (index_existing_files_v2 fs0)
          (remote.map Note.id) d).1 m) ∧
    (d = true → ∀ f ∈ (delete_local_only_files fs0 (index_existing_files_v2 fs0)
        (remote.map Note.id) d).1, ∀ v, gidOf f = some v →
      v ∈ remote.map (fun n => Value.str n.id)) := by
  have hsub := delete_sublist fs0 (index_existing_files_v2 fs0) (remote.map Note.id) d
  have hsubset := hsub.subset
  refine ⟨?_, ?_, ?_, ?_⟩
  · exact (hsub.map (fun g => g.path)).nodup hnd
  · intro x y hx hy v hxv hyv
    exact huni x y (hsubset hx) (hsubset hy) v hxv hyv
  · intro m hm
    unfold IdxMatch
    rcases hlnm : dictGet (index_existing_files_v2 fs0) (Value.str m.id) with _ | lnm
    · -- nothing advertises m's id in fs0, a fortiori in the sub-tree
      intro g hg hc
      have hgfs0 := hsubset hg
      have hGood : GoodFor fs0 (Value.str m.id) g :=
        ⟨hgfs0, hc, fun g2 hg2 hg2v => huni g2 g hg2 hgfs0 _ hg2v hc⟩
      rw [dictGet_indexV2_good fs0 _ g hGood] at hlnm
      cases hlnm
    · obtain ⟨f, hfmem, hfgid, hlneq⟩ := dictGet_indexV2_some fs0 _ lnm hlnm
      have hGood : GoodFor fs0 (Value.str m.id) f :=
        ⟨hfmem, hfgid, fun g2 hg2 hg2v => huni g2 f hg2 hfmem _ hg2v hfgid⟩
      have hfD : f ∈ (delete_local_only_files fs0 (index_existing_files_v2 fs0)
          (remote.map Note.id) d).1 := by
        rcases d with _ | _
        · rw [delete_unauthorized_eq]
          exact hfmem
        · rw [mem_delete_authorized]
          refine ⟨hfmem, ?_⟩
          rintro ⟨v, hvorph, ln2, hln2, hln2path⟩
          obtain ⟨f2, hf2mem, hf2gid, hln2eq⟩ := dictGet_indexV2_some fs0 v ln2 hln2
          have hpatheq : f2.path = f.path := by
            have : ln2.path = some f2.path := by rw [hln2eq]; rfl
            rw [this] at hln2path
            injection hln2path
          have hf2f : f2 = f := List.inj_on_of_nodup_map hnd hf2mem hfmem hpatheq
          have hveq : v = Value.str m.id := by
            rw [hf2f] at hf2gid
            rw [hfgid] at hf2gid
            injection hf2gid with h2
            exact h2.symm
          unfold orphanIds at hvorph
          rw [List.mem_filter] at hvorph
          have := hvorph.2
          rw [hveq] at this
          simp only [decide_eq_true_eq] at this
          apply this
          rw [keepStr_eq]
          exact List.mem_map.mpr ⟨m, hm, rfl⟩
      refine ⟨f, ⟨hfD, hfgid, ?_⟩, by rw [hlneq]; rfl, by rw [hlneq]; rfl⟩
      intro g hg hggid
      exact huni g f (hsubset hg) hfmem _ hggid hfgid
  · intro hd f hf v hgid
    subst hd
    by_contra hnotin
    have hffs0 := hsubset hf
    have hGood : GoodFor fs0 v f :=
      ⟨hffs0, hgid, fun g2 hg2 hg2v => huni g2 f hg2 hffs0 _ hg2v hgid⟩
    have hidx := dictGet_indexV2_good fs0 v f hGood
    have hkeys := dictGet_isSome_mem_keys _ v _ hidx
    have hvorph : v ∈ orphanIds (index_existing_files_v2 fs0) (remote.map Note.id) := by
      unfold orphanIds
      rw [List.mem_filter]
      refine ⟨by unfold index_existing_files_v2 at hkeys ⊢; exact hkeys, ?_⟩
      simp only [decide_eq_true_eq]
      rw [keepStr_eq]
      exact hnotin
    rw [mem_delete_authorized] at hf
    exact hf.2 ⟨v, hvorph, localNoteOf v f, hidx, rfl⟩

/-! ### The second run skips everything -/

theorem process_note_skip (env : NameEnv)
    (rop : Filesystem → Path → Path → Except String Filesystem)
    (mediaCount : Note → Nat) (idx : List (Value × LocalNote)) (cfg : Config)
    (fs : Filesystem) (note : Note) (ln : LocalNote)
    (hln : dictGet idx (Value.str note.id) = some ln)
    (hts : ln.timestamp_updated = some note.timestamps.updated) :
    (process_note env rop mediaCount idx cfg fs note).1 = .skip := by
  unfold process_note
  simp only [hln, Option.getD_some, hts]
  simp

theorem fold_all_skip (env : NameEnv) (mediaCount : Note → Nat)
    (oracle : Path → Path → Bool) (idx : List (Value × LocalNote)) (cfg : Config)
    (todo : List Note) :
    ∀ acc : Filesystem × RunCounts,
    (∀ n ∈ todo, ∀ fsX : Filesystem,
      (process_note env (renameOpOf oracle) mediaCount idx cfg fsX n).1 = .skip) →
    ((todo.foldl (mainStep env mediaCount oracle idx cfg) acc).2.created = acc.2.created) ∧
    ((todo.foldl (mainStep env mediaCount oracle idx cfg) acc).2.updated = acc.2.updated) ∧
    ((todo.foldl (mainStep env mediaCount oracle idx cfg) acc).2.skipped =
      acc.2.skipped + todo.length) := by
  induction todo with
  | nil =>
    intro acc _
    exact ⟨rfl, rfl, rfl⟩
  | cons n rest ih =>
    intro acc hskip
    rw [List.foldl_cons]
    have ho := hskip n (List.mem_cons_self n rest) acc.1
    obtain ⟨fs2, dl, hstep⟩ : ∃ fs2 dl, mainStep env mediaCount oracle idx cfg acc n =
        (fs2, { acc.2 with skipped := acc.2.skipped + 1,
                           downloaded := acc.2.downloaded + dl }) := by
      unfold mainStep
      rcases hp : process_note env (renameOpOf oracle) mediaCount idx cfg acc.1 n with
        ⟨o, fs2, dl⟩
      rw [hp] at ho
      have : o = .skip := ho
      subst this
      exact ⟨fs2, dl, rfl⟩
    rw [hstep]
    obtain ⟨i1, i2, i3⟩ := ih
      (fs2, { acc.2 with skipped := acc.2.skipped + 1,
                         downloaded := acc.2.downloaded + dl })
      (fun m hm fsX => hskip m (List.mem_cons_of_mem n hm) fsX)
    refine ⟨by rw [i1], by rw [i2], ?_⟩
    rw [i3]
    simp only [List.length_cons]
    omega

theorem orphanIds_empty (fs1 : Filesystem) (remote : List Note)
    (hbound : ∀ f ∈ fs1, ∀ v, gidOf f = some v →
      v ∈ remote.map (fun n => Value.str n.id)) :
    orphanIds (index_existing_files_v2 fs1) (remote.map Note.id) = [] := by
  unfold orphanIds
  rw [List.filter_eq_nil_iff]
  intro v hv
  simp only [decide_eq_true_eq, Decidable.not_not]
  obtain ⟨f, hf, hgid⟩ := keys_indexV2 fs1 v hv
  rw [keepStr_eq]
  exact hbound f hf v hgid

theorem delete_phase_counts_zero (fs1 : Filesystem) (remote : List Note) (d : Bool)
    (hbound : d = true → ∀ f ∈ fs1, ∀ v, gidOf f = some v →
      v ∈ remote.map (fun n => Value.str n.id)) :
    delete_local_only_files fs1 (index_existing_files_v2 fs1) (remote.map Note.id) d =
      (fs1, 0) := by
  rcases d with _ | _
  · simp [delete_local_only_files]
  · unfold delete_local_only_files
    rw [orphanIds_empty fs1 remote (hbound rfl)]
    rfl

/-- C1 (amended): reconciliation is idempotent provided the metadata header is
enabled, the remote ids are distinct and nonempty, and no two local files claim
the same remote id — after one complete run, a second run over the same
unchanged snapshot performs zero creates, zero updates and zero deletes, and
every remote note takes the SKIP outcome. -/
theorem idempotence_amended (env env2 : NameEnv) (mediaCount mediaCount2 : Note → Nat)
    (oracle oracle2 : Path → Path → Bool) (cfg : Config) (remote : List Note)
    (fs0 : Filesystem)
    (hheader : cfg.header = true)
    (hnodup : (remote.map Note.id).Nodup)
    (hids : ∀ n ∈ remote, n.id ≠ "")
    (hnd : (fs0.map (fun g => g.path)).Nodup)
    (huni : UniqueGids fs0) :
    ((main env2 mediaCount2 oracle2 cfg remote
        (main env mediaCount oracle cfg remote fs0).1).2.created = 0) ∧
    ((main env2 mediaCount2 oracle2 cfg remote
        (main env mediaCount oracle cfg remote fs0).1).2.updated = 0) ∧
    ((main env2 mediaCount2 oracle2 cfg remote
        (main env mediaCount oracle cfg remote fs0).1).2.deleted = 0) ∧
    ((main env2 mediaCount2 oracle2 cfg remote
        (main env mediaCount oracle cfg remote fs0).1).2.skipped = remote.length) := by
  obtain ⟨d1, d2, d3, d4⟩ := delete_phase_effects fs0 remote cfg.delete_local hnd huni
  obtain ⟨k1, k2, k3, k4, k5⟩ := run1_loop env oracle mediaCount (index_existing_files_v2 fs0)
    cfg remote
    (delete_local_only_files fs0 (index_existing_files_v2 fs0) (remote.map Note.id)
      cfg.delete_local).1
    { skipped := 0, updated := 0, created := 0,
      deleted := (delete_local_only_files fs0 (index_existing_files_v2 fs0)
        (remote.map Note.id) cfg.delete_local).2, downloaded := 0 }
    hheader hnodup hids d1 d2 d3
  have hmain1 : (main env mediaCount oracle cfg remote fs0).1 =
      (remote.foldl (mainStep env mediaCount oracle (index_existing_files_v2 fs0) cfg)
        ((delete_local_only_files fs0 (index_existing_files_v2 fs0) (remote.map Note.id)
          cfg.delete_local).1,
         { skipped := 0, updated := 0, created := 0,
           deleted := (delete_local_only_files fs0 (index_existing_files_v2 fs0)
             (remote.map Note.id) cfg.delete_local).2, downloaded := 0 })).1 := rfl
  rw [hmain1]
  generalize hfs1 : (remote.foldl (mainStep env mediaCount oracle (index_existing_files_v2 fs0)
      cfg)
      ((delete_local_only_files fs0 (index_existing_files_v2 fs0) (remote.map Note.id)
        cfg.delete_local).1,
       { skipped := 0, updated := 0, created := 0,
         deleted := (delete_local_only_files fs0 (index_existing_files_v2 fs0)
           (remote.map Note.id) cfg.delete_local).2, downloaded := 0 })).1 = fs1 at k1 k2 k3 k5 ⊢
  have hbound2 : cfg.delete_local = true → ∀ f ∈ fs1, ∀ v, gidOf f = some v →
      v ∈ remote.map (fun n => Value.str n.id) := by
    intro hd f hf v hgid
    rcases k5 f hf with hfD | ⟨n, hn, hg⟩
    · exact d4 hd f hfD v hgid
    · rw [hgid] at hg
      injection hg with hg
      rw [hg]
      exact List.mem_map.mpr ⟨n, hn, rfl⟩
  have hskip2 : ∀ n ∈ remote, ∀ fsX : Filesystem,
      (process_note env2 (renameOpOf oracle2) mediaCount2 (index_existing_files_v2 fs1)
        cfg fsX n).1 = .skip := by
    intro n hn fsX
    obtain ⟨f, hfgood, hfts⟩ := k3 n hn
    exact process_note_skip env2 (renameOpOf oracle2) mediaCount2
      (index_existing_files_v2 fs1) cfg fsX n (localNoteOf (Value.str n.id) f)
      (dictGet_indexV2_good fs1 (Value.str n.id) f hfgood) hfts
  have hmain2 : main env2 mediaCount2 oracle2 cfg remote fs1 =
      remote.foldl (mainStep env2 mediaCount2 oracle2 (index_existing_files_v2 fs1) cfg)
        (fs1, { skipped := 0, updated := 0, created := 0, deleted := 0, downloaded := 0 }) := by
    have e := delete_phase_counts_zero fs1 remote cfg.delete_local hbound2
    show remote.foldl (mainStep env2 mediaCount2 oracle2 (index_existing_files_v2 fs1) cfg)
        ((delete_local_only_files fs1 (index_existing_files_v2 fs1) (remote.map Note.id)
          cfg.delete_local).1,
         { skipped := 0, updated := 0, created := 0,
           deleted := (delete_local_only_files fs1 (index_existing_files_v2 fs1)
             (remote.map Note.id) cfg.delete_local).2, downloaded := 0 }) = _
    rw [e]
  rw [hmain2]
  obtain ⟨c1, c2, c3⟩ := fold_all_skip env2 mediaCount2 oracle2 (index_existing_files_v2 fs1)
    cfg remote
    (fs1, { skipped := 0, updated := 0, created := 0, deleted := 0, downloaded := 0 })
    hskip2
  refine ⟨by rw [c1], by rw [c2], ?_, by rw [c3]; simp⟩
  rw [foldl_mainStep_deleted]

/-- Concrete instance of the amended C1: a fresh export of one note followed
by a second run over the unchanged snapshot — the second run creates, updates
and deletes nothing and skips the one note. -/
theorem idempotence_amended_witness :
    ((main envW (fun _ => 0) (fun _ _ => true) cfgW [noteW]
        (main envW (fun _ => 0) (fun _ _ => true) cfgW [noteW] []).1).2.created = 0) ∧
    ((main envW (fun _ => 0) (fun _ _ => true) cfgW [noteW]
        (main envW (fun _ => 0) (fun _ _ => true) cfgW [noteW] []).1).2.updated = 0) ∧
    ((main envW (fun _ => 0) (fun _ _ => true) cfgW [noteW]
        (main envW (fun _ => 0) (fun _ _ => true) cfgW [noteW] []).1).2.deleted = 0) ∧
    ((main envW (fun _ => 0) (fun _ _ => true) cfgW [noteW]
        (main envW (fun _ => 0) (fun _ _ => true) cfgW [noteW] []).1).2.skipped =
      [noteW].length) :=
  idempotence_amended envW envW (fun _ => 0) (fun _ => 0) (fun _ _ => true) (fun _ _ => true)
    cfgW [noteW] [] rfl (by decide) (by decide) (by decide)
    (by intro f g hf; cases hf)

end KeepExporter
